/-
Verification of the RoyalUr-Python repository: a shallow embedding of the
rules engine (royalur/rules/simple.py), the game model (royalur/model/),
the board encoder (royalur/lut/board_encoder.py), the dice
(royalur/model/dice.py) and the LUT agent (royalur/lut/lut_player.py),
together with proofs settling the specification claims.
-/
import Mathlib

namespace RoyalUr

set_option maxRecDepth 2000

/-- Embeds `PlayerType` (royalur/model/player.py): the two players. -/
inductive PlayerType where
  | light
  | dark
deriving DecidableEq

/-- Embeds `PlayerType.get_other_player`. -/
def PlayerType.other : PlayerType → PlayerType
  | .light => .dark
  | .dark => .light

/-- Embeds `Tile` (royalur/model/tile.py): a 1-based board coordinate.
The source validates `1 ≤ x ≤ 26` and `y ≥ 0` at construction; every tile
built in this development satisfies those bounds. -/
structure Tile where
  x : Nat
  y : Nat
deriving DecidableEq

/-- Embeds `Tile.__repr__`: `chr('A'+x-1) || str(y)`. -/
def Tile.repr (t : Tile) : String :=
  String.mk [Char.ofNat (t.x + 64)] ++ toString t.y

/-- Embeds `Tile.step_towards`: one unit-length step towards `other`,
moving along the axis with the larger delta (x on ties). -/
def Tile.step_towards (self other : Tile) : Tile :=
  let dx : Int := (other.x : Int) - (self.x : Int)
  let dy : Int := (other.y : Int) - (self.y : Int)
  if dx.natAbs + dy.natAbs ≤ 1 then other
  else if dx.natAbs < dy.natAbs then
    { x := self.x, y := if 0 < dy then self.y + 1 else self.y - 1 }
  else
    { x := if 0 < dx then self.x + 1 else self.x - 1, y := self.y }

/-- One segment of `Tile.create_path`: the `while current != next` loop,
emitting each stepped tile.  The fuel bounds the loop; 64 exceeds every
segment length used by the standard path definitions. -/
def walk_segment : Nat → Tile → Tile → List Tile
  | 0, _, _ => []
  | fuel + 1, current, next =>
    if current = next then []
    else
      let stepped := current.step_towards next
      stepped :: walk_segment fuel stepped next

/-- The waypoint loop of `Tile.create_path`. -/
def create_path_go : Tile → List Tile → List Tile
  | _, [] => []
  | current, next :: rest => walk_segment 64 current next ++ create_path_go next rest

/-- Embeds `Tile.create_path` (royalur/model/tile.py): expands waypoints
into the full path, starting from the first waypoint. -/
def create_path (waypoints : List Tile) : List Tile :=
  match waypoints with
  | [] => []
  | w :: rest => w :: create_path_go w rest

/-- Bell light path waypoints (`BellPathPair.LIGHT_PATH`, royalur/model/path.py). -/
def bell_light_waypoints : List Tile :=
  [⟨1, 5⟩, ⟨1, 1⟩, ⟨2, 1⟩, ⟨2, 8⟩, ⟨1, 8⟩, ⟨1, 6⟩]

/-- Bell dark path waypoints (`BellPathPair.DARK_PATH`). -/
def bell_dark_waypoints : List Tile :=
  [⟨3, 5⟩, ⟨3, 1⟩, ⟨2, 1⟩, ⟨2, 8⟩, ⟨3, 8⟩, ⟨3, 6⟩]

/-- The Bell light path including the off-board start and end tiles
(`PathPair._light_with_ends`). -/
def bell_light_with_ends : List Tile := create_path bell_light_waypoints

/-- The Bell dark path including the off-board start and end tiles. -/
def bell_dark_with_ends : List Tile := create_path bell_dark_waypoints

/-- The Bell light path without its off-board ends (`PathPair._light`,
built as `light_with_ends[1:-1]`). -/
def bell_light : List Tile := (bell_light_with_ends.drop 1).dropLast

/-- The Bell dark path without its off-board ends. -/
def bell_dark : List Tile := (bell_dark_with_ends.drop 1).dropLast

/-- The tiles of `StandardBoardShape` (royalur/model/shape.py):
`set(BellPathPair.LIGHT_PATH[1:-1]) ∪ set(BellPathPair.DARK_PATH[1:-1])`.
The Python set is modelled as a duplicate-free list. -/
def standard_board_tiles : List Tile := (bell_light ++ bell_dark).dedup

/-- `StandardBoardShape.ROSETTE_TILES`. -/
def standard_rosettes : List Tile :=
  [⟨1, 1⟩, ⟨3, 1⟩, ⟨2, 4⟩, ⟨1, 7⟩, ⟨3, 7⟩]

/-- Embeds `Piece` (royalur/model/board.py): an owner together with the
index of the tile the piece sits on within the owner's path. -/
structure Piece where
  owner : PlayerType
  pathIndex : Nat
deriving DecidableEq

/-- Embeds `Board` (royalur/model/board.py) as a map from tiles to
optional pieces.  The source stores a dense `width × height` array indexed
by `iy * width + ix` and validates shape membership on `get`/`set`; the
rules engine only ever reads and writes tiles lying on a player path,
which (for the configurations proved about here) are contained in the
board shape, so the array and the map agree on every access. -/
def Board := Tile → Option Piece

/-- The empty board (a fresh `Board(shape)`: every cell `None`). -/
def Board.empty : Board := fun _ => none

/-- Embeds `Board.set` restricted to in-shape tiles (see `Board`). -/
def Board.set (b : Board) (t : Tile) (p : Option Piece) : Board :=
  fun u => if u = t then p else b u

/-- Embeds `Board.count_pieces`: the number of cells holding a piece of
the given player.  `tiles` is the deduplicated cell list of the board
shape; cells outside the shape are always `None` in the source array. -/
def count_pieces (tiles : List Tile) (b : Board) (player : PlayerType) : Nat :=
  tiles.countP fun t =>
    match b t with
    | some piece => decide (piece.owner = player)
    | none => false

/-- Embeds `PlayerState` (royalur/model/player.py): a player, their
reserve piece count, and their score. -/
structure PlayerState where
  player : PlayerType
  pieceCount : Nat
  score : Nat
deriving DecidableEq

/-- Embeds `Move` (royalur/model/board.py).  `source = none` means the
move introduces a piece; `dest = none` means it scores a piece. -/
structure Move where
  player : PlayerType
  source : Option Tile
  sourcePiece : Option Piece
  dest : Option Tile
  destPiece : Option Piece
  capturedPiece : Option Piece
deriving DecidableEq

/-- Embeds `Move.is_introducing_piece`. -/
def Move.is_introducing_piece (m : Move) : Bool := m.source.isNone

/-- Embeds `Move.is_scoring_piece`. -/
def Move.is_scoring_piece (m : Move) : Bool := m.dest.isNone

/-- Embeds `Move.is_capture`. -/
def Move.is_capture (m : Move) : Bool := m.capturedPiece.isSome

/-- Embeds `Move.is_dest_rosette`: the destination exists and is a
rosette of the shape. -/
def Move.is_dest_rosette (m : Move) (rosettes : List Tile) : Bool :=
  match m.dest with
  | some t => decide (t ∈ rosettes)
  | none => false

/-- Embeds `Move.apply`: clear the source cell (when present), then write
the destination piece (when present). -/
def Move.apply (m : Move) (b : Board) : Board :=
  let b1 := match m.source with
    | some s => b.set s none
    | none => b
  match m.dest with
  | some t => b1.set t m.destPiece
  | none => b1

/-- The rule-set data of `SimpleRuleSet` (royalur/rules/simple.py)
together with the game settings it is created from: the board shape
(tiles and rosettes), the two player paths (with and without the
off-board ends), the three boolean rules and the starting piece count of
`SimplePlayerStateProvider`. -/
structure RuleConfig where
  shapeTiles : List Tile
  rosettes : List Tile
  lightPath : List Tile
  darkPath : List Tile
  lightWithEnds : List Tile
  darkWithEnds : List Tile
  safeRosettes : Bool
  rosettesGrantExtraRolls : Bool
  capturesGrantExtraRolls : Bool
  startingPieceCount : Nat

/-- Embeds `PathPair.get`. -/
def RuleConfig.path (cfg : RuleConfig) : PlayerType → List Tile
  | .light => cfg.lightPath
  | .dark => cfg.darkPath

/-- Embeds `PathPair.get_start`: the first with-ends tile of the player. -/
def RuleConfig.get_start (cfg : RuleConfig) : PlayerType → Tile
  | .light => cfg.lightWithEnds.headD ⟨0, 0⟩
  | .dark => cfg.darkWithEnds.headD ⟨0, 0⟩

/-- The Finkel settings (`GameSettings.create_finkel`,
royalur/model/settings.py): standard board, Bell paths, safe rosettes,
rosettes grant extra rolls, captures do not, seven starting pieces. -/
def finkelConfig : RuleConfig where
  shapeTiles := standard_board_tiles
  rosettes := standard_rosettes
  lightPath := bell_light
  darkPath := bell_dark
  lightWithEnds := bell_light_with_ends
  darkWithEnds := bell_dark_with_ends
  safeRosettes := true
  rosettesGrantExtraRolls := true
  capturesGrantExtraRolls := false
  startingPieceCount := 7

/-- The destination handling shared by both candidate kinds inside the
move loop of `SimpleRuleSet.find_available_moves`: skip when the
destination holds an own piece, skip a safe rosette, otherwise record the
occupant as captured; the moved piece is built by the piece provider with
the destination path index. -/
def move_candidate_dest (cfg : RuleConfig) (board : Board)
    (playerType : PlayerType) (src : Option Tile) (srcPiece : Option Piece)
    (destPathIndex : Nat) (path : List Tile) : Option Move :=
  let dest := path.getD destPathIndex ⟨0, 0⟩
  match board dest with
  | some destPieceOnBoard =>
    if destPieceOnBoard.owner = playerType then none
    else if cfg.safeRosettes = true ∧ dest ∈ cfg.rosettes then none
    else some
      { player := playerType, source := src, sourcePiece := srcPiece,
        dest := some dest, destPiece := some ⟨playerType, destPathIndex⟩,
        capturedPiece := some destPieceOnBoard }
  | none => some
      { player := playerType, source := src, sourcePiece := srcPiece,
        dest := some dest, destPiece := some ⟨playerType, destPathIndex⟩,
        capturedPiece := none }

/-- One iteration of the `for path_index in range(-1, len(path) - roll)`
loop of `SimpleRuleSet.find_available_moves`; `none` plays the role of
the `-1` index (introducing a piece). -/
def move_candidate (cfg : RuleConfig) (board : Board) (player : PlayerState)
    (roll : Nat) (idx : Option Nat) : Option Move :=
  let playerType := player.player
  let path := cfg.path playerType
  match idx with
  | some pathIndex =>
    match board (path.getD pathIndex ⟨0, 0⟩) with
    | some piece =>
      if piece.owner = playerType ∧ piece.pathIndex = pathIndex then
        move_candidate_dest cfg board playerType
          (some (path.getD pathIndex ⟨0, 0⟩)) (some piece)
          (pathIndex + roll) path
      else none
    | none => none
  | none =>
    if 0 < player.pieceCount then
      move_candidate_dest cfg board playerType none none (roll - 1) path
    else none

/-- Embeds `SimpleRuleSet.find_available_moves`: the optional scoring
move followed by the loop over `range(-1, len(path) - roll)`.  The Python
range contains `-1` (and the naturals below `len(path) - roll`) exactly
when `roll ≤ len(path)`. -/
def find_available_moves (cfg : RuleConfig) (board : Board)
    (player : PlayerState) (roll : Nat) : List Move :=
  if roll = 0 then []
  else
    let playerType := player.player
    let path := cfg.path playerType
    let scoring : List Move :=
      if roll ≤ path.length then
        match board (path.getD (path.length - roll) ⟨0, 0⟩) with
        | some scorePiece =>
          if scorePiece.owner = playerType ∧
              scorePiece.pathIndex = path.length - roll then
            [{ player := playerType,
               source := some (path.getD (path.length - roll) ⟨0, 0⟩),
               sourcePiece := some scorePiece,
               dest := none, destPiece := none, capturedPiece := none }]
          else []
        | none => []
      else []
    let indices : List (Option Nat) :=
      if roll ≤ path.length then
        none :: (List.range (path.length - roll)).map some
      else []
    scoring ++ indices.filterMap (move_candidate cfg board player roll)

/-- Embeds the `GameState` hierarchy (royalur/rules/state/): the five
concrete state classes as a sum type. -/
inductive GameState where
  | waitingForRoll (board : Board) (light dark : PlayerState) (turn : PlayerType)
  | rolled (board : Board) (light dark : PlayerState) (turn : PlayerType)
      (roll : Nat) (availableMoves : List Move)
  | waitingForMove (board : Board) (light dark : PlayerState) (turn : PlayerType)
      (roll : Nat) (availableMoves : List Move)
  | moved (board : Board) (light dark : PlayerState) (turn : PlayerType)
      (roll : Nat) (move : Move)
  | win (board : Board) (light dark : PlayerState) (winner : PlayerType)

/-- The board of a state (`GameState.board`). -/
def GameState.board : GameState → Board
  | .waitingForRoll b _ _ _ => b
  | .rolled b _ _ _ _ _ => b
  | .waitingForMove b _ _ _ _ _ => b
  | .moved b _ _ _ _ _ => b
  | .win b _ _ _ => b

/-- The light player state of a state (`GameState.light_player`). -/
def GameState.lightPlayer : GameState → PlayerState
  | .waitingForRoll _ l _ _ => l
  | .rolled _ l _ _ _ _ => l
  | .waitingForMove _ l _ _ _ _ => l
  | .moved _ l _ _ _ _ => l
  | .win _ l _ _ => l

/-- The dark player state of a state (`GameState.dark_player`). -/
def GameState.darkPlayer : GameState → PlayerState
  | .waitingForRoll _ _ d _ => d
  | .rolled _ _ d _ _ _ => d
  | .waitingForMove _ _ d _ _ _ => d
  | .moved _ _ d _ _ _ => d
  | .win _ _ d _ => d

/-- Embeds `GameState.get_player` on the constructor fields. -/
def getPlayer (l d : PlayerState) : PlayerType → PlayerState
  | .light => l
  | .dark => d

/-- Embeds `OngoingGameState.get_turn` (`none` for a win state, where the
method does not exist). -/
def GameState.turn : GameState → Option PlayerType
  | .waitingForRoll _ _ _ t => some t
  | .rolled _ _ _ t _ _ => some t
  | .waitingForMove _ _ _ t _ _ => some t
  | .moved _ _ _ t _ _ => some t
  | .win _ _ _ _ => none

/-- Embeds `SimpleRuleSet.apply_roll`: emit the `Rolled` action state,
then either pass the turn (no moves) or wait for a move. -/
def apply_roll (cfg : RuleConfig) (board : Board) (l d : PlayerState)
    (turn : PlayerType) (roll : Nat) : List GameState :=
  let availableMoves := find_available_moves cfg board (getPlayer l d turn) roll
  let rolledState := GameState.rolled board l d turn roll availableMoves
  if availableMoves.length = 0 then
    [rolledState, .waitingForRoll board l d turn.other]
  else
    [rolledState, .waitingForMove board l d turn roll availableMoves]

/-- Embeds `SimpleRuleSet.should_grant_extra_roll`. -/
def should_grant_extra_roll (cfg : RuleConfig) (m : Move) : Bool :=
  (cfg.rosettesGrantExtraRolls && m.is_dest_rosette cfg.rosettes) ||
    (cfg.capturesGrantExtraRolls && m.is_capture)

/-- Embeds `SimplePlayerStateProvider.apply_piece_introduced`: one piece
leaves the reserve. -/
def apply_piece_introduced (ps : PlayerState) : PlayerState :=
  ⟨ps.player, ps.pieceCount - 1, ps.score⟩

/-- Embeds `SimplePlayerStateProvider.apply_piece_captured`: the captured
piece returns to the reserve. -/
def apply_piece_captured (ps : PlayerState) : PlayerState :=
  ⟨ps.player, ps.pieceCount + 1, ps.score⟩

/-- Embeds `SimplePlayerStateProvider.apply_piece_scored`: one point is
scored. -/
def apply_piece_scored (ps : PlayerState) : PlayerState :=
  ⟨ps.player, ps.pieceCount, ps.score + 1⟩

/-- The turn player update of `SimpleRuleSet.apply_move`: the
`is_introducing_piece` / `is_scoring_piece` if/elif chain. -/
def move_turn_player (m : Move) (ps : PlayerState) : PlayerState :=
  if m.is_introducing_piece then apply_piece_introduced ps
  else if m.is_scoring_piece then apply_piece_scored ps
  else ps

/-- The waiting player update of `SimpleRuleSet.apply_move`: captures
return the piece to the opponent's reserve. -/
def move_other_player (m : Move) (ps : PlayerState) : PlayerState :=
  if m.is_capture then apply_piece_captured ps else ps

/-- Embeds `SimpleRuleSet.apply_move`: emit the `Moved` action state,
update the board and both player states, reassemble the light/dark slots
by the turn player's `player` field, then either declare a win (scoring
move, no pieces left in reserve or on the board) or pass to the next
`WaitingForRoll` with the extra-turn policy applied. -/
def apply_move (cfg : RuleConfig) (board : Board) (l d : PlayerState)
    (turn : PlayerType) (roll : Nat) (m : Move) : List GameState :=
  let movedState := GameState.moved board l d turn roll m
  let board2 := m.apply board
  let turnPlayer := move_turn_player m (getPlayer l d turn)
  let otherPlayer := move_other_player m (getPlayer l d turn.other)
  let turn2 := turnPlayer.player
  let lightPlayer := if turn2 = .light then turnPlayer else otherPlayer
  let darkPlayer := if turn2 = .dark then turnPlayer else otherPlayer
  if m.is_scoring_piece = true ∧
      turnPlayer.pieceCount + count_pieces cfg.shapeTiles board2 turn2 = 0 then
    [movedState, .win board2 lightPlayer darkPlayer turn2]
  else
    let nextTurn := if should_grant_extra_roll cfg m then turn2 else turn2.other
    [movedState, .waitingForRoll board2 lightPlayer darkPlayer nextTurn]

/-- Embeds `SimpleRuleSet.generate_initial_game_state`: empty board, both
players created with the starting piece count and zero score, Light to
move. -/
def generate_initial_game_state (cfg : RuleConfig) : GameState :=
  .waitingForRoll Board.empty
    ⟨.light, cfg.startingPieceCount, 0⟩
    ⟨.dark, cfg.startingPieceCount, 0⟩
    .light

/-- Embeds `SimpleGameStateEncoding.add_middle_lane_states`
(royalur/lut/board_encoder.py): depth-first enumeration of the 8 center
cells, each cell taking occupant 0 (empty), 1 (dark, allowed while the
dark counter stays nonnegative) or 2 (light, likewise), recording the
fully assigned raw pattern at depth 8.  The source recurses on `index`
from 0 to 8; here `fuel = 8 - index` drives the recursion, so `fuel = 1`
is the `next_index == 8` append case. -/
def add_middle_lane_states : Nat → Nat → Nat → Nat → Nat → List Nat
  | _, _, _, _, 0 => []
  | state, lightPieces, darkPieces, index, 1 =>
    [state ||| (0 <<< (2 * index))] ++
      (if darkPieces = 0 then []
       else [state ||| (1 <<< (2 * index))]) ++
      (if lightPieces = 0 then []
       else [state ||| (2 <<< (2 * index))])
  | state, lightPieces, darkPieces, index, fuel + 2 =>
    add_middle_lane_states (state ||| (0 <<< (2 * index)))
      lightPieces darkPieces (index + 1) (fuel + 1) ++
      (if darkPieces = 0 then []
       else add_middle_lane_states (state ||| (1 <<< (2 * index)))
        lightPieces (darkPieces - 1) (index + 1) (fuel + 1)) ++
      (if lightPieces = 0 then []
       else add_middle_lane_states (state ||| (2 <<< (2 * index)))
        (lightPieces - 1) darkPieces (index + 1) (fuel + 1))

/-- The list `states` built by
`SimpleGameStateEncoding.generate_middle_lane_compression`: the DFS
started with both counters at 7. -/
def middle_lane_states : List Nat := add_middle_lane_states 0 7 7 0 8

/-- The assignment loop of `generate_middle_lane_compression`:
`for index, state in enumerate(states): table[state] = index`.  Every
recorded raw pattern is below the table length 0xFFFF (proved below), so
`List.set` coincides with the Python list assignment. -/
def assign_compression : List Int → List Nat → Nat → List Int
  | table, [], _ => table
  | table, state :: rest, index => assign_compression (table.set state index) rest (index + 1)

/-- The table `middle_lane_compression` of the source:
`[-1] * 0xFFFF` updated by the assignment loop. -/
def middle_lane_compression : List Int :=
  assign_compression (List.replicate 0xFFFF (-1)) middle_lane_states 0

/-- The assignment loop observed at one position `raw` of the table:
starting from the initial `-1`, each enumerated state equal to `raw`
overwrites the accumulator with its index (the last write wins, exactly
as for the Python list assignments). -/
def compression_write : List Nat → Nat → Int → Nat → Int
  | [], _, acc, _ => acc
  | s :: rest, index, acc, raw =>
    compression_write rest (index + 1) (if s = raw then (index : Int) else acc) raw

/-- The value the assignment loop of
`generate_middle_lane_compression` leaves at position `raw` of the
table. -/
def middle_lane_compression_at (raw : Nat) : Int :=
  compression_write middle_lane_states 0 (-1) raw

/-- The number of states recorded by `add_middle_lane_states`, as a
function of the two counters and the remaining depth (the recorded
states do not depend on `state` or `index` for counting purposes). -/
def add_middle_lane_count : Nat → Nat → Nat → Nat
  | _, _, 0 => 0
  | lp, dp, 1 => 1 + (if dp = 0 then 0 else 1) + (if lp = 0 then 0 else 1)
  | lp, dp, fuel + 2 =>
    add_middle_lane_count lp dp (fuel + 1) +
      (if dp = 0 then 0 else add_middle_lane_count lp (dp - 1) (fuel + 1)) +
      (if lp = 0 then 0 else add_middle_lane_count (lp - 1) dp (fuel + 1))

/-- A center-lane pattern, given as its base-4 digit list (occupants of
cells `index, index+1, ...`), packed into the raw word exactly as the
DFS packs occupants: each digit shifted to its cell's two bits and
or-ed in. -/
def pack_from : Nat → List Nat → Nat
  | _, [] => 0
  | index, d :: rest => (d <<< (2 * index)) ||| pack_from (index + 1) rest

/-- The `while max_compressed > (1 << bits): bits += 1` loop of
`SimpleGameStateEncoding.__init__`, fueled (the loop runs at most as
often as the bit length of `max_compressed`; fuel 64 is ample for the
concrete value it is run on). -/
def compression_bits_loop : Int → Nat → Nat → Nat
  | _, bits, 0 => bits
  | maxCompressed, bits, fuel + 1 =>
    if ((1 <<< bits : Nat) : Int) < maxCompressed then
      compression_bits_loop maxCompressed (bits + 1) fuel
    else bits

/-- The tail of `SimpleGameStateEncoding.__init__` as a function of the
computed `max_compressed` (`max()` of a Python list fails on an empty
list, hence the `none` error branch): run the bits loop from 1 and raise
`RuntimeError` unless exactly 13 bits are needed. -/
def simple_game_state_encoding_check (maxCompressed : WithBot Int) :
    Except String (List Int) :=
  match maxCompressed with
  | none => .error "max() arg is an empty sequence"
  | some m =>
    if compression_bits_loop m 1 64 ≠ 13 then
      .error "Expected the middle lane to take 13 bits"
    else .ok middle_lane_compression

/-- Embeds `SimpleGameStateEncoding.__init__`: build the compression
table, take its maximum, and run the 13-bit check. -/
def simple_game_state_encoding_init : Except String (List Int) :=
  simple_game_state_encoding_check middle_lane_compression.maximum

/-- `Board._pieces[board._calc_tile_index(ix, iy)]` for 0-based indices:
the cell of `Tile.from_indices(ix, iy)`. -/
def board_at_indices (b : Board) (ix iy : Nat) : Option Piece :=
  b ⟨ix + 1, iy + 1⟩

/-- The raw 16-bit center word of
`SimpleGameStateEncoding.encode_middle_lane`: for each of the 8 cells of
column index 1, occupant 0 (empty), 1 (dark) or 2 (light), packed two
bits per cell. -/
def raw_middle_lane (b : Board) : Nat :=
  (List.range 8).foldl
    (fun state index =>
      let occupant : Nat :=
        match board_at_indices b 1 index with
        | none => 0
        | some piece => if piece.owner = .dark then 1 else 2
      state ||| (occupant <<< (2 * index)))
    0

/-- The tail of `SimpleGameStateEncoding.encode_middle_lane` as a
function of the table entry: a sentinel entry is the
`ValueError("Illegal board state!")`. -/
def encode_middle_lane_with (compressed : Int) : Except String Nat :=
  if compressed = -1 then .error "Illegal board state!"
  else .ok compressed.toNat

/-- Embeds `SimpleGameStateEncoding.encode_middle_lane`: compress the
raw center word through the table. -/
def encode_middle_lane (b : Board) : Except String Nat :=
  encode_middle_lane_with (middle_lane_compression_at (raw_middle_lane b))

/-- Embeds `SimpleGameStateEncoding.encode_side_lane`: occupancy bits of
the six on-path cells of an outer column (row indices 0..3 then 6..7).
The source also computes a `base_bit_index` that it never uses; that dead
local is omitted. -/
def encode_side_lane (b : Board) (boardX : Nat) : Nat :=
  (List.range 6).foldl
    (fun state index =>
      let boardY := if 4 ≤ index then index + 2 else index
      let occupant : Nat := if (board_at_indices b boardX boardY).isSome then 1 else 0
      state ||| (occupant <<< index))
    0

/-- Embeds `SimpleGameStateEncoding.encode_board`. -/
def encode_board (b : Board) : Except String Nat := do
  let middleLane ← encode_middle_lane b
  return encode_side_lane b 2 ||| (middleLane <<< 6) ||| (encode_side_lane b 0 <<< 19)

/-- Embeds `SimpleGameStateEncoding.encode_game_state` on the state
components: reject states where it is not the light player's turn, then
pack the board key with the dark reserve at bit 25 and the light reserve
at bit 28. -/
def encode_game_state_core (b : Board) (l d : PlayerState)
    (turn : PlayerType) : Except String Nat :=
  if turn ≠ .light then
    .error "Only game states where it is the light player's turn are supported by this encoding"
  else do
    let state ← encode_board b
    return state ||| (d.pieceCount <<< 25) ||| (l.pieceCount <<< 28)

/-- `encode_game_state` applied to a `GameState` (the Python code calls
`game_state.get_turn()`, which only exists on ongoing states). -/
def encode_game_state : GameState → Except String Nat
  | .waitingForRoll b l d t => encode_game_state_core b l d t
  | .rolled b l d t _ _ => encode_game_state_core b l d t
  | .waitingForMove b l d t _ _ => encode_game_state_core b l d t
  | .moved b l d t _ _ => encode_game_state_core b l d t
  | .win _ _ _ _ => .error "win states have no turn"

/-- The states a game driven by the rule engine can append to its
history: the initial state, every state emitted by `apply_roll` from a
reachable `WaitingForRoll` (for any roll value), and every state emitted
by `apply_move` from a reachable `WaitingForMove` for a move taken from
its available moves (this is how `Game.roll_dice` and `Game.make_move`
drive `SimpleRuleSet`). -/
inductive Reachable (cfg : RuleConfig) : GameState → Prop where
  | init : Reachable cfg (generate_initial_game_state cfg)
  | roll {board l d turn roll s} :
      Reachable cfg (.waitingForRoll board l d turn) →
      s ∈ apply_roll cfg board l d turn roll →
      Reachable cfg s
  | move {board l d turn roll moves m s} :
      Reachable cfg (.waitingForMove board l d turn roll moves) →
      m ∈ moves →
      s ∈ apply_move cfg board l d turn roll m →
      Reachable cfg s

/-! Dice (royalur/model/dice.py). -/

/-- The probability loop of `BinaryDice.__init__`:
`for roll in range(0, num_die + 1): append(baseProb * nChooseK);
nChooseK = nChooseK * (num_die - roll) // (roll + 1)`.  The floats
involved are small dyadic rationals on which every operation performed is
exact, so ℚ models them faithfully. -/
def binary_dice_probs_go : ℚ → Nat → Nat → Nat → Nat → List ℚ
  | _, _, _, _, 0 => []
  | baseProb, numDie, roll, nChooseK, fuel + 1 =>
    (baseProb * (nChooseK : ℚ)) ::
      binary_dice_probs_go baseProb numDie (roll + 1)
        (nChooseK * (numDie - roll) / (roll + 1)) fuel

/-- Embeds the `_roll_probabilities` built by `BinaryDice.__init__` for
`num_die` binary dice (`baseProb = 0.5 ** num_die`). -/
def binary_dice_roll_probabilities (numDie : Nat) : List ℚ :=
  binary_dice_probs_go ((1 / 2 : ℚ) ^ numDie) numDie 0 1 (numDie + 1)

/-- Embeds the probability rotation of `BinaryDice0AsMax.__init__`:
`[0, *probs[1:], probs[0]]` (the binomial list is never empty). -/
def binary_dice_0_as_max_roll_probabilities (numDie : Nat) : List ℚ :=
  let probs := binary_dice_roll_probabilities numDie
  0 :: (probs.tail ++ [probs.headD 0])

/-- The `_max_roll_value` stored by `BinaryDice0AsMax.__init__`:
`num_die + 1`. -/
def binary_dice_0_as_max_stored_max_roll_value (numDie : Nat) : Nat :=
  numDie + 1

/-- The instance slots available on a `BinaryDice0AsMax` object: the
`__slots__` of `Dice`, `BinaryDice` and `BinaryDice0AsMax` as assigned by
their `__init__` methods (all classes in the hierarchy use `__slots__`,
so instances have no attribute dictionary). -/
def binary_dice_0_as_max_slots : List String :=
  ["_name", "_num_die", "_roll_probabilities", "_max_roll_value"]

/-- The properties defined on the `BinaryDice0AsMax` class chain
(royalur/model/dice.py): `Dice.name` and `BinaryDice.num_die`. -/
def binary_dice_0_as_max_property_names : List String :=
  ["name", "num_die"]

/-- The methods defined on the `BinaryDice0AsMax` class chain. -/
def binary_dice_0_as_max_method_names : List String :=
  ["has_state", "copy_from", "get_max_roll_value", "get_roll_probabilities",
   "roll_value", "record_roll", "generate_roll", "roll"]

/-- Embeds `BinaryDice0AsMax.get_max_roll_value`, whose body is
`return self.max_roll_value`: Python attribute lookup over the instance
slots, the properties and the methods of the class chain; when no
attribute of that name exists the lookup raises `AttributeError`.  The
`ok` branch returns the stored `_max_roll_value` the getter was evidently
meant to expose. -/
def binary_dice_0_as_max_get_max_roll_value (numDie : Nat) : Except String Nat :=
  if "max_roll_value" ∈ binary_dice_0_as_max_slots ∨
      "max_roll_value" ∈ binary_dice_0_as_max_property_names ∨
      "max_roll_value" ∈ binary_dice_0_as_max_method_names then
    .ok (binary_dice_0_as_max_stored_max_roll_value numDie)
  else
    .error "AttributeError: max_roll_value"

/-! `Game.make_move` (royalur/game.py) and `RuleSet.paths`
(royalur/rules/rules.py). -/

/-- The Python exceptions surfacing from `Game.make_move`. -/
inductive PyError where
  | valueError (msg : String)
  | runtimeError (msg : String)
  | unboundLocalError (name : String)
deriving DecidableEq

/-- Embeds the `RuleSet.paths` property (royalur/rules/rules.py, lines
141-146): its body evaluates `self._paths` without a `return` statement,
so the property always returns `None`. -/
def rule_set_paths (_cfg : RuleConfig) : Option RuleConfig :=
  none

/-- Embeds `Move.get_source(paths)` (royalur/model/board.py): the source
tile, or the path start tile when `paths` is given and the move
introduces a piece, or `RuntimeError` when `paths` is `None` for an
introducing move. -/
def move_get_source (m : Move) (paths : Option RuleConfig) : Except PyError Tile :=
  match m.source with
  | some s => .ok s
  | none =>
    match paths with
    | some cfg => .ok (cfg.get_start m.player)
    | none => .error (.runtimeError "This move has no source, as it is introducing a piece")

/-- Embeds the `Piece` branch of `Game.make_move`: the first available
move that has a source and whose source piece equals the argument;
otherwise `ValueError`. -/
def make_move_with_piece : List Move → Piece → Except PyError Move
  | [], _ => .error (.valueError "The piece cannot be moved")
  | m :: rest, piece =>
    if m.source.isSome = true ∧ m.sourcePiece = some piece then .ok m
    else make_move_with_piece rest piece

/-- The loop of the `Tile` branch of `Game.make_move`.  When no move
matches, the `raise ValueError(f"There is no available move from
{piece}")` statement evaluates the f-string first, and `piece` is an
unbound local in that branch, so the statement actually raises
`UnboundLocalError` instead of the `ValueError`. -/
def make_move_with_tile_go (paths : Option RuleConfig) (tile : Tile) :
    List Move → Except PyError Move
  | [] => .error (.unboundLocalError "piece")
  | m :: rest =>
    match move_get_source m paths with
    | .error e => .error e
    | .ok s => if s = tile then .ok m else make_move_with_tile_go paths tile rest

/-- Embeds the `Tile` branch of `Game.make_move`: it reads
`paths = self._rules.paths` (which is `None`, see `rule_set_paths`) and
scans the available moves by `get_source(paths)`. -/
def make_move_with_tile (cfg : RuleConfig) (availableMoves : List Move)
    (tile : Tile) : Except PyError Move :=
  make_move_with_tile_go (rule_set_paths cfg) tile availableMoves

/-! `PathPair` objects and the `name` property (royalur/model/path.py). -/

/-- The data stored by `PathPair.__init__`: the `_name` field and the two
with-ends tile lists (the end-stripped lists are derived from them). -/
structure PathPairObj where
  nameField : String
  lightWithEnds : List Tile
  darkWithEnds : List Tile
deriving DecidableEq

/-- Embeds the `PathPair.name` property getter, whose body is
`return self.name`: reading `name` on a `PathPair` resolves to this very
property, so the getter calls itself and never produces a value.  The
fuel parameter bounds the recursion depth (Python's interpreter
eventually raises `RecursionError`); with any finite budget the getter
returns nothing. -/
def path_pair_name (p : PathPairObj) : Nat → Option String
  | 0 => none
  | fuel + 1 => path_pair_name p fuel

/-- Embeds `PathPair.__eq__`: the `_name` fields and the two with-ends
paths must match. -/
def path_pair_eq (a b : PathPairObj) : Bool :=
  decide (a.nameField = b.nameField) &&
    decide (a.lightWithEnds = b.lightWithEnds) &&
    decide (a.darkWithEnds = b.darkWithEnds)

/-- `BellPathPair()`. -/
def bellPathPair : PathPairObj :=
  ⟨"Bell", bell_light_with_ends, bell_dark_with_ends⟩

/-- `AsebPathPair()` (waypoints from `AsebPathPair.LIGHT_PATH`/`DARK_PATH`). -/
def asebPathPair : PathPairObj :=
  ⟨"Aseb",
   create_path [⟨1, 5⟩, ⟨1, 1⟩, ⟨2, 1⟩, ⟨2, 12⟩, ⟨1, 12⟩],
   create_path [⟨3, 5⟩, ⟨3, 1⟩, ⟨2, 1⟩, ⟨2, 12⟩, ⟨3, 12⟩]⟩

/-- `MastersPathPair()`. -/
def mastersPathPair : PathPairObj :=
  ⟨"Masters",
   create_path [⟨1, 5⟩, ⟨1, 1⟩, ⟨2, 1⟩, ⟨2, 7⟩, ⟨3, 7⟩, ⟨3, 8⟩, ⟨1, 8⟩, ⟨1, 6⟩],
   create_path [⟨3, 5⟩, ⟨3, 1⟩, ⟨2, 1⟩, ⟨2, 7⟩, ⟨1, 7⟩, ⟨1, 8⟩, ⟨3, 8⟩, ⟨3, 6⟩]⟩

/-- `MurrayPathPair()`. -/
def murrayPathPair : PathPairObj :=
  ⟨"Murray",
   create_path [⟨1, 5⟩, ⟨1, 1⟩, ⟨2, 1⟩, ⟨2, 7⟩, ⟨3, 7⟩, ⟨3, 8⟩, ⟨1, 8⟩, ⟨1, 7⟩,
     ⟨2, 7⟩, ⟨2, 1⟩, ⟨3, 1⟩, ⟨3, 5⟩],
   create_path [⟨3, 5⟩, ⟨3, 1⟩, ⟨2, 1⟩, ⟨2, 7⟩, ⟨1, 7⟩, ⟨1, 8⟩, ⟨3, 8⟩, ⟨3, 7⟩,
     ⟨2, 7⟩, ⟨2, 1⟩, ⟨1, 1⟩, ⟨1, 5⟩]⟩

/-- `SkiriukPathPair()`. -/
def skiriukPathPair : PathPairObj :=
  ⟨"Skiriuk",
   create_path [⟨1, 5⟩, ⟨1, 1⟩, ⟨2, 1⟩, ⟨2, 7⟩, ⟨3, 7⟩, ⟨3, 8⟩, ⟨1, 8⟩, ⟨1, 7⟩,
     ⟨2, 7⟩, ⟨2, 0⟩],
   create_path [⟨3, 5⟩, ⟨3, 1⟩, ⟨2, 1⟩, ⟨2, 7⟩, ⟨1, 7⟩, ⟨1, 8⟩, ⟨3, 8⟩, ⟨3, 7⟩,
     ⟨2, 7⟩, ⟨2, 0⟩]⟩

/-! The LUT agent (royalur/lut/lut_player.py). -/

/-- Modelled from the spec: `GameState.copy_inverted` is called by
`LutAgent.play` (and by test_lut.py) but is not defined anywhere under
the repository's source; the spec describes it as "invert the state (swap
the players' pieces, swap reserves, re-mark turn as Light)" and the
glossary as the mirror-image state obtained by swapping both players'
roles wholesale.  On the standard three-column board the mirror image of
column `x` is column `4 - x`. -/
def mirror_tile (t : Tile) : Tile := ⟨4 - t.x, t.y⟩

/-- Modelled from the spec: a piece swapped to the other player (part of
the missing `copy_inverted`). -/
def Piece.swapped (p : Piece) : Piece := ⟨p.owner.other, p.pathIndex⟩

/-- Modelled from the spec: the board with the players' pieces swapped
(part of the missing `copy_inverted`). -/
def Board.inverted (b : Board) : Board :=
  fun t => (b (mirror_tile t)).map Piece.swapped

/-- Modelled from the spec: the missing `GameState.copy_inverted` on the
states the agent applies it to.  `LutAgent.play` only inverts the
non-terminal state reached right after applying a move, which is always a
`WaitingForRoll`; the board's pieces are swapped, the reserves and scores
are swapped, and the turn is re-marked as Light. -/
def copy_inverted : GameState → GameState
  | .waitingForRoll b l d _ =>
    .waitingForRoll b.inverted
      ⟨.light, d.pieceCount, d.score⟩
      ⟨.dark, l.pieceCount, l.score⟩
      .light
  | s => s

/-- The per-move valuation inside `LutAgent.play`: apply the move (the
copied game's current state is the last state emitted by `apply_move`);
a win is worth 0 (dark) or 65535 (light); otherwise, when the turn is not
Light, invert the state, encode, look the key up and use
`65535 - value`; when the turn is Light, encode and look up directly.
A failed lookup (Python `KeyError` from `Lut.lookup`) or a failed
encoding (`ValueError`) propagates out of `play`; both are `none` here. -/
def lut_value_of_move (lut : Nat → Option Nat) (cfg : RuleConfig)
    (board : Board) (l d : PlayerState) (turn : PlayerType) (roll : Nat)
    (m : Move) : Option Nat :=
  match apply_move cfg board l d turn roll m with
  | [_, next] =>
    match next with
    | .win _ _ _ winner => some (if winner = .dark then 0 else 65535)
    | s =>
      if s.turn ≠ some .light then
        match encode_game_state (copy_inverted s) with
        | .ok key => (lut key).map (fun value => 65535 - value)
        | .error _ => none
      else
        match encode_game_state s with
        | .ok key => lut key
        | .error _ => none
  | _ => none

/-- Embeds `LutAgent.play`: fold over the available moves keeping the
first move whose value strictly exceeds the best seen so far, starting
from `highest_value = 0, highest_move = None`.  An exception from any
per-move valuation aborts the whole call (`none`); otherwise the result
is `some` of the final `highest_move`. -/
def lut_agent_play (lut : Nat → Option Nat) (cfg : RuleConfig)
    (board : Board) (l d : PlayerState) (turn : PlayerType) (roll : Nat)
    (moves : List Move) : Option (Option Move) :=
  (moves.foldlM
    (fun (acc : Nat × Option Move) m =>
      (lut_value_of_move lut cfg board l d turn roll m).map
        (fun value => if acc.1 < value then (value, some m) else acc))
    ((0 : Nat), (none : Option Move))).map (fun acc => acc.2)

/-! Invariant predicates for the rule engine. -/

/-- The player-slot discipline the rule engine maintains: the light slot
holds a `PlayerState` for Light and the dark slot one for Dark. -/
def PlayersOk (s : GameState) : Prop :=
  s.lightPlayer.player = .light ∧ s.darkPlayer.player = .dark

/-- Reachable `WaitingForMove` states carry exactly the moves
`find_available_moves` computed for their board, turn player and roll. -/
def MovesOk (cfg : RuleConfig) (s : GameState) : Prop :=
  ∀ b l d t r mvs, s = .waitingForMove b l d t r mvs →
    mvs = find_available_moves cfg b (getPlayer l d t) r

/-- Piece conservation: for each player, reserve + on-board count + score
equals the starting piece count. -/
def Conserved (cfg : RuleConfig) (s : GameState) : Prop :=
  ∀ pl, (getPlayer s.lightPlayer s.darkPlayer pl).pieceCount +
      count_pieces cfg.shapeTiles s.board pl +
      (getPlayer s.lightPlayer s.darkPlayer pl).score =
    cfg.startingPieceCount

/-- Well-formedness of a rule configuration: the shape's cell list is
duplicate-free (it models a Python set) and both paths stay on the board
shape (true of every standard configuration; it is what makes the
total-map board model agree with the source's checked array). -/
structure CfgOk (cfg : RuleConfig) : Prop where
  nodup : cfg.shapeTiles.Nodup
  light_subset : ∀ t ∈ cfg.lightPath, t ∈ cfg.shapeTiles
  dark_subset : ∀ t ∈ cfg.darkPath, t ∈ cfg.shapeTiles

/-- What `find_available_moves` guarantees about each move it returns,
relative to the board and the acting player's state: the facts the
conservation argument consumes. -/
structure MoveOk (cfg : RuleConfig) (b : Board) (player : PlayerState)
    (m : Move) : Prop where
  src_mem : ∀ s, m.source = some s → s ∈ cfg.shapeTiles
  src_piece : ∀ s, m.source = some s →
    ∃ sp, b s = some sp ∧ m.sourcePiece = some sp ∧ sp.owner = player.player
  intro_ok : m.source = none →
    m.sourcePiece = none ∧ 0 < player.pieceCount ∧ m.dest ≠ none
  dest_mem : ∀ t, m.dest = some t → t ∈ cfg.shapeTiles
  dest_piece : ∀ t, m.dest = some t → ∃ j, m.destPiece = some ⟨player.player, j⟩
  dest_occupant : ∀ t, m.dest = some t →
    (b t = none ∧ m.capturedPiece = none) ∨
      (∃ cp, b t = some cp ∧ cp.owner ≠ player.player ∧ m.capturedPiece = some cp)
  score_ok : m.dest = none → m.destPiece = none ∧ m.capturedPiece = none
  src_ne_dest : ∀ s t, m.source = some s → m.dest = some t → s ≠ t

/-! Concrete data for the end-to-end scenarios. -/

/-- The single move available from the Finkel starting position with a
roll of 4: introduce a piece to light-path index 3, the rosette A1. -/
def intro_move_a1 : Move :=
  { player := .light, source := none, sourcePiece := none,
    dest := some ⟨1, 1⟩, destPiece := some ⟨.light, 3⟩, capturedPiece := none }

/-- The single move available from the Finkel starting position with a
roll of 1: introduce a piece to light-path index 0, the tile A4. -/
def intro_move_a4 : Move :=
  { player := .light, source := none, sourcePiece := none,
    dest := some ⟨1, 4⟩, destPiece := some ⟨.light, 0⟩, capturedPiece := none }

/-- A LUT stub answering every key with the same value. -/
def lut_const (v : Nat) : Nat → Option Nat := fun _ => some v

/-- The board after introducing a light piece to A4 from the empty board. -/
def board_a4 : Board := Board.empty.set ⟨1, 4⟩ (some ⟨.light, 0⟩)

/-- The occupant selected for `pl` at a cell. -/
def piece_occ (pl : PlayerType) : Option Piece → Bool
  | some piece => decide (piece.owner = pl)
  | none => false

/-! Basic lemmas. -/

theorem PlayerType.other_ne (t : PlayerType) : t.other ≠ t := by
  cases t <;> simp [PlayerType.other]

theorem PlayerType.eq_other_of_ne {p q : PlayerType} (h : p ≠ q) : p = q.other := by
  cases p <;> cases q <;> simp_all [PlayerType.other]

theorem four_pow_eq (idx : Nat) : (4 : Nat) ^ idx = 2 ^ (2 * idx) := by
  rw [pow_mul]
  norm_num

/-- For `a` below `2 ^ k`, or-ing in a value shifted past bit `k` is
plain addition: the bit ranges are disjoint. -/
theorem lor_shiftLeft_eq_add : ∀ (k a b : Nat), a < 2 ^ k →
    a ||| b <<< k = a + b <<< k := by
  intro k
  induction k with
  | zero =>
    intro a b h
    have ha : a = 0 := by simpa using h
    subst ha
    simp
  | succ k ih =>
    intro a b h
    have hd : Nat.bit a.bodd a.div2 = a := Nat.bit_decomp a
    have hdiv : a.div2 = a / 2 := Nat.div2_val a
    have hpow : (2 : Nat) ^ (k + 1) = 2 ^ k * 2 := pow_succ 2 k
    have hlt : a.div2 < 2 ^ k := by
      rw [hdiv]
      omega
    have hb : b <<< (k + 1) = Nat.bit false (b <<< k) := by
      rw [Nat.shiftLeft_eq, Nat.shiftLeft_eq, Nat.bit_val]
      simp [hpow]
      ring
    calc a ||| b <<< (k + 1)
        = Nat.bit a.bodd a.div2 ||| Nat.bit false (b <<< k) := by rw [hd, hb]
      _ = Nat.bit (a.bodd || false) (a.div2 ||| b <<< k) := Nat.lor_bit _ _ _ _
      _ = Nat.bit a.bodd (a.div2 + b <<< k) := by rw [Bool.or_false, ih _ _ hlt]
      _ = a + b <<< (k + 1) := by
          rw [Nat.bit_val] at hd ⊢
          rw [hb, Nat.bit_val]
          simp only [Bool.toNat_false] at *
          omega

theorem occupant_lor_eq_add {state idx : Nat} (d : Nat)
    (h : state < 4 ^ idx) : state ||| d <<< (2 * idx) = state + d * 4 ^ idx := by
  rw [four_pow_eq] at h ⊢
  rw [lor_shiftLeft_eq_add _ _ _ h, Nat.shiftLeft_eq]

/-! Lemmas about the center-lane DFS (`add_middle_lane_states`). -/

theorem mem_ite_nil_else {α : Type} {c : Prop} [Decidable c] {l : List α} {s : α}
    (h : s ∈ (if c then [] else l)) : ¬c ∧ s ∈ l := by
  by_cases hc : c <;> simp [hc] at h ⊢ <;> exact h

theorem mem_add_middle_bounds : ∀ (fuel idx state lp dp : Nat),
    state < 4 ^ idx →
    ∀ s ∈ add_middle_lane_states state lp dp idx fuel,
      state ≤ s ∧ 3 * s + 2 * 4 ^ idx ≤ 3 * state + 2 * 4 ^ (idx + fuel) := by
  intro fuel
  induction fuel with
  | zero =>
    intro idx state lp dp _ s hs
    simp [add_middle_lane_states] at hs
  | succ f ih =>
    intro idx state lp dp hstate s hs
    have hpow_succ : (4 : Nat) ^ (idx + 1) = 4 ^ idx * 4 := pow_succ 4 idx
    have h0 : state ||| 0 <<< (2 * idx) = state + 0 * 4 ^ idx :=
      occupant_lor_eq_add 0 hstate
    have h1 : state ||| 1 <<< (2 * idx) = state + 1 * 4 ^ idx :=
      occupant_lor_eq_add 1 hstate
    have h2 : state ||| 2 <<< (2 * idx) = state + 2 * 4 ^ idx :=
      occupant_lor_eq_add 2 hstate
    match f with
    | 0 =>
      have hpow0 : (4 : Nat) ^ (idx + (0 + 1)) = 4 ^ idx * 4 := by
        norm_num [pow_succ]
      simp only [add_middle_lane_states, List.mem_append, List.mem_singleton] at hs
      rcases hs with (h | h) | h
      · rw [h0] at h
        subst h
        constructor <;> omega
      · obtain ⟨hdp, h⟩ := mem_ite_nil_else h
        rw [List.mem_singleton] at h
        rw [h1] at h
        subst h
        constructor <;> omega
      · obtain ⟨hlp, h⟩ := mem_ite_nil_else h
        rw [List.mem_singleton] at h
        rw [h2] at h
        subst h
        constructor <;> omega
    | f' + 1 =>
      simp only [add_middle_lane_states, List.mem_append] at hs
      have hpow_chain : (4 : Nat) ^ (idx + 1 + (f' + 1)) = 4 ^ (idx + (f' + 1 + 1)) := by
        ring_nf
      rcases hs with (h | h) | h
      · rw [h0] at h
        have := ih (idx + 1) (state + 0 * 4 ^ idx) lp dp (by omega) s h
        rw [hpow_chain] at this
        constructor <;> omega
      · obtain ⟨hdp, h⟩ := mem_ite_nil_else h
        rw [h1] at h
        have := ih (idx + 1) (state + 1 * 4 ^ idx) lp (dp - 1) (by omega) s h
        rw [hpow_chain] at this
        constructor <;> omega
      · obtain ⟨hlp, h⟩ := mem_ite_nil_else h
        rw [h2] at h
        have := ih (idx + 1) (state + 2 * 4 ^ idx) (lp - 1) dp (by omega) s h
        rw [hpow_chain] at this
        constructor <;> omega

/-- Each raw pattern occurs at most once per subtree root: the root state
itself is recorded exactly once. -/
theorem count_root_add_middle : ∀ (fuel idx state lp dp : Nat),
    state < 4 ^ idx → 1 ≤ fuel →
    (add_middle_lane_states state lp dp idx fuel).count state = 1 := by
  intro fuel
  induction fuel with
  | zero => omega
  | succ f ih =>
    intro idx state lp dp hstate _
    have h0 : state ||| 0 <<< (2 * idx) = state + 0 * 4 ^ idx :=
      occupant_lor_eq_add 0 hstate
    have h1 : state ||| 1 <<< (2 * idx) = state + 1 * 4 ^ idx :=
      occupant_lor_eq_add 1 hstate
    have h2 : state ||| 2 <<< (2 * idx) = state + 2 * 4 ^ idx :=
      occupant_lor_eq_add 2 hstate
    have hpos : 0 < (4 : Nat) ^ idx := Nat.pos_pow_of_pos idx (by omega)
    have count_ite_zero : ∀ (c : Prop) [Decidable c] (l : List Nat),
        ((∀ y ∈ l, state < y) → (if c then [] else l).count state = 0) := by
      intro c _ l hl
      by_cases hc : c
      · simp [hc]
      · simp only [hc, if_false, List.count_eq_zero]
        intro hmem
        exact absurd rfl (Nat.ne_of_gt (hl state hmem))
    match f with
    | 0 =>
      simp only [add_middle_lane_states, List.count_append]
      rw [h0, h1, h2]
      have c1 : (if dp = 0 then ([] : List Nat) else [state + 1 * 4 ^ idx]).count state = 0 := by
        apply count_ite_zero
        intro y hy
        rw [List.mem_singleton] at hy
        omega
      have c2 : (if lp = 0 then ([] : List Nat) else [state + 2 * 4 ^ idx]).count state = 0 := by
        apply count_ite_zero
        intro y hy
        rw [List.mem_singleton] at hy
        omega
      rw [c1, c2]
      simp
    | f' + 1 =>
      simp only [add_middle_lane_states, List.count_append]
      rw [h0, h1, h2]
      have hmain : (add_middle_lane_states (state + 0 * 4 ^ idx) lp dp (idx + 1) (f' + 1)).count state = 1 := by
        have := ih (idx + 1) (state + 0 * 4 ^ idx) lp dp (by
          rw [pow_succ]
          omega) (by omega)
        simpa using this
      have c1 : (if dp = 0 then ([] : List Nat)
          else add_middle_lane_states (state + 1 * 4 ^ idx) lp (dp - 1) (idx + 1) (f' + 1)).count state = 0 := by
        apply count_ite_zero
        intro y hy
        have := mem_add_middle_bounds (f' + 1) (idx + 1) (state + 1 * 4 ^ idx) lp (dp - 1)
          (by rw [pow_succ]; omega) y hy
        omega
      have c2 : (if lp = 0 then ([] : List Nat)
          else add_middle_lane_states (state + 2 * 4 ^ idx) (lp - 1) dp (idx + 1) (f' + 1)).count state = 0 := by
        apply count_ite_zero
        intro y hy
        have := mem_add_middle_bounds (f' + 1) (idx + 1) (state + 2 * 4 ^ idx) (lp - 1) dp
          (by rw [pow_succ]; omega) y hy
        omega
      rw [hmain, c1, c2]

/-- The first state the DFS records is the all-empty pattern `0`. -/
theorem middle_lane_states_head : middle_lane_states.head? = some 0 := by
  rfl

/-- The raw pattern `0` is recorded exactly once. -/
theorem middle_lane_states_count_zero : middle_lane_states.count 0 = 1 := by
  have := count_root_add_middle 8 0 0 7 7 (by norm_num) (by norm_num)
  simpa [middle_lane_states] using this

/-- An unmatched scan leaves the accumulator unchanged. -/
theorem compression_write_of_count_zero : ∀ (l : List Nat) (i : Nat) (acc : Int) (raw : Nat),
    l.count raw = 0 → compression_write l i acc raw = acc := by
  intro l
  induction l with
  | nil => intro i acc raw _; rfl
  | cons s rest ih =>
    intro i acc raw h
    rw [List.count_cons] at h
    have hne : ¬(s = raw) := by
      intro hc
      simp [hc] at h
    rw [compression_write, if_neg hne]
    exact ih _ _ _ (by omega)

/-- The compression table maps the raw pattern `0` to index `0`
(the value the assignment loop leaves at position 0). -/
theorem middle_lane_compression_at_zero : middle_lane_compression_at 0 = 0 := by
  have hhead := middle_lane_states_head
  have hcount := middle_lane_states_count_zero
  unfold middle_lane_compression_at
  rcases hl : middle_lane_states with _ | ⟨a, tail⟩
  · rw [hl] at hhead
    simp at hhead
  · rw [hl] at hhead hcount
    rw [List.head?_cons] at hhead
    have ha : a = 0 := by injection hhead
    subst ha
    rw [List.count_cons] at hcount
    simp at hcount
    rw [compression_write, if_pos rfl]
    exact compression_write_of_count_zero tail 1 0 0 hcount

/-- The DFS records `add_middle_lane_count` many states. -/
theorem length_add_middle : ∀ (fuel idx state lp dp : Nat),
    (add_middle_lane_states state lp dp idx fuel).length =
      add_middle_lane_count lp dp fuel := by
  intro fuel
  induction fuel with
  | zero => intro idx state lp dp; rfl
  | succ f ih =>
    intro idx state lp dp
    match f with
    | 0 =>
      simp only [add_middle_lane_states, add_middle_lane_count, List.length_append]
      by_cases hdp : dp = 0 <;> by_cases hlp : lp = 0 <;> simp [hdp, hlp]
    | f' + 1 =>
      simp only [add_middle_lane_states, add_middle_lane_count, List.length_append]
      by_cases hdp : dp = 0 <;> by_cases hlp : lp = 0 <;> simp [hdp, hlp, ih]

/-- The DFS records 6559 center-lane patterns. -/
theorem middle_lane_states_length : middle_lane_states.length = 6559 := by
  rw [middle_lane_states, length_add_middle]
  rfl

/-- Every recorded raw pattern is below the table length `0xFFFF`. -/
theorem middle_lane_states_lt : ∀ s ∈ middle_lane_states, s < 0xFFFF := by
  intro s hs
  have := mem_add_middle_bounds 8 0 0 7 7 (by norm_num) s hs
  norm_num at this
  omega

/-! Lemmas about the compression table built by `assign_compression`. -/

theorem assign_compression_length : ∀ (l : List Nat) (t : List Int) (i : Nat),
    (assign_compression t l i).length = t.length := by
  intro l
  induction l with
  | nil => intro t i; rfl
  | cons s rest ih =>
    intro t i
    rw [assign_compression, ih, List.length_set]

theorem assign_compression_ub : ∀ (l : List Nat) (t : List Int) (i : Nat) (B : Int),
    (∀ y ∈ t, y ≤ B) → ((i + l.length : Nat) : Int) ≤ B + 1 →
    ∀ y ∈ assign_compression t l i, y ≤ B := by
  intro l
  induction l with
  | nil => intro t i B ht _ y hy; exact ht y hy
  | cons s rest ih =>
    intro t i B ht hlen y hy
    rw [assign_compression] at hy
    refine ih (t.set s (i : Int)) (i + 1) B ?_ ?_ y hy
    · intro z hz
      rcases List.mem_or_eq_of_mem_set hz with hz | hz
      · exact ht z hz
      · subst hz
        rw [List.length_cons] at hlen
        push_cast at hlen ⊢
        omega
    · rw [List.length_cons] at hlen
      push_cast at hlen ⊢
      omega

theorem assign_compression_append : ∀ (l : List Nat) (t : List Int) (i : Nat) (s : Nat),
    assign_compression t (l ++ [s]) i =
      (assign_compression t l i).set s ((i + l.length : Nat) : Int) := by
  intro l
  induction l with
  | nil => intro t i s; rfl
  | cons a rest ih =>
    intro t i s
    rw [List.cons_append, assign_compression, assign_compression, ih]
    congr 2
    rw [List.length_cons]
    omega

/-- Setting an in-range position makes the written value a member. -/
theorem mem_set_of_lt {α : Type} : ∀ (l : List α) (i : Nat) (v : α),
    i < l.length → v ∈ l.set i v := by
  intro l
  induction l with
  | nil => intro i v h; simp at h
  | cons a rest ih =>
    intro i v h
    match i with
    | 0 => simp
    | j + 1 =>
      rw [List.set_cons_succ]
      rw [List.length_cons] at h
      exact List.mem_cons_of_mem a (ih j v (by omega))

/-- The maximum entry of the compression table is 6558 (the index of the
last recorded pattern). -/
theorem middle_lane_compression_maximum :
    middle_lane_compression.maximum = (6558 : Int) := by
  have hne : middle_lane_states ≠ [] := by
    intro h
    have := middle_lane_states_length
    rw [h] at this
    simp at this
  have hsplit := List.dropLast_append_getLast hne
  have hdrop_len : middle_lane_states.dropLast.length = 6558 := by
    rw [List.length_dropLast, middle_lane_states_length]
  have hlast_mem : middle_lane_states.getLast hne ∈ middle_lane_states :=
    List.getLast_mem hne
  have hlast_lt : middle_lane_states.getLast hne < 0xFFFF :=
    middle_lane_states_lt _ hlast_mem
  have happ := assign_compression_append middle_lane_states.dropLast
    (List.replicate 0xFFFF (-1)) 0 (middle_lane_states.getLast hne)
  have hv : (((0 + middle_lane_states.dropLast.length : Nat)) : Int) = (6558 : Int) := by
    rw [hdrop_len]
    norm_num
  have htab : middle_lane_compression =
      (assign_compression (List.replicate 0xFFFF (-1)) middle_lane_states.dropLast 0).set
        (middle_lane_states.getLast hne) (6558 : Int) := by
    rw [middle_lane_compression]
    conv_lhs => rw [← hsplit]
    rw [happ, hv]
  have hlen : (assign_compression (List.replicate 0xFFFF (-1)) middle_lane_states.dropLast 0).length
      = 0xFFFF := by
    rw [assign_compression_length, List.length_replicate]
  rw [List.maximum_eq_coe_iff]
  constructor
  · rw [htab]
    exact mem_set_of_lt _ _ _ (by rw [hlen]; exact hlast_lt)
  · intro y hy
    rw [middle_lane_compression] at hy
    refine assign_compression_ub middle_lane_states (List.replicate 0xFFFF (-1)) 0 6558 ?_ ?_ y hy
    · intro z hz
      have := List.eq_of_mem_replicate hz
      omega
    · rw [middle_lane_states_length]
      norm_num

/-- The constructor of `SimpleGameStateEncoding` succeeds: the bits loop
returns exactly 13, so the `RuntimeError` branch is not taken. -/
theorem simple_game_state_encoding_init_ok :
    simple_game_state_encoding_init = .ok middle_lane_compression := by
  unfold simple_game_state_encoding_init
  rw [middle_lane_compression_maximum]
  rfl

/-- The DFS records every center-lane digit pattern whose dark-piece
count (digit 1) is at most the dark counter and whose light-piece count
(digit 2) is at most the light counter. -/
theorem mem_add_middle_of_digits : ∀ (fuel idx state lp dp : Nat) (ds : List Nat),
    ds.length = fuel → (∀ d ∈ ds, d ≤ 2) → ds.count 1 ≤ dp → ds.count 2 ≤ lp →
    1 ≤ fuel →
    state ||| pack_from idx ds ∈ add_middle_lane_states state lp dp idx fuel := by
  intro fuel
  induction fuel with
  | zero => omega
  | succ f ih =>
    intro idx state lp dp ds hlen hdig h1 h2 _
    match ds, hlen with
    | d :: rest, hlen =>
      have hd : d ≤ 2 := hdig d (List.mem_cons_self d rest)
      have hdig2 : ∀ x ∈ rest, x ≤ 2 := fun x hx => hdig x (List.mem_cons_of_mem d hx)
      have hc1 : rest.count 1 + (if d = 1 then 1 else 0) ≤ dp := by
        rw [List.count_cons] at h1
        simpa using h1
      have hc2 : rest.count 2 + (if d = 2 then 1 else 0) ≤ lp := by
        rw [List.count_cons] at h2
        simpa using h2
      match f with
      | 0 =>
        have hrest : rest = [] := by
          rw [List.length_cons] at hlen
          exact List.length_eq_zero.mp (by omega)
        subst hrest
        have hpack : pack_from idx [d] = d <<< (2 * idx) := by
          rw [pack_from, pack_from]
          simp
        rw [hpack]
        rw [show add_middle_lane_states state lp dp idx 1 =
          [state ||| 0 <<< (2 * idx)] ++
            (if dp = 0 then [] else [state ||| 1 <<< (2 * idx)]) ++
            (if lp = 0 then [] else [state ||| 2 <<< (2 * idx)]) from rfl]
        interval_cases d
        · exact List.mem_append_left _ (List.mem_append_left _ (List.mem_singleton.mpr rfl))
        · have hdp : ¬(dp = 0) := by simp at hc1; omega
          refine List.mem_append_left _ (List.mem_append_right _ ?_)
          rw [if_neg hdp]
          exact List.mem_singleton.mpr rfl
        · have hlp : ¬(lp = 0) := by simp at hc2; omega
          refine List.mem_append_right _ ?_
          rw [if_neg hlp]
          exact List.mem_singleton.mpr rfl
      | f' + 1 =>
        have hlen2 : rest.length = f' + 1 := by
          rw [List.length_cons] at hlen
          omega
        have hassoc : state ||| pack_from idx (d :: rest) =
            (state ||| d <<< (2 * idx)) ||| pack_from (idx + 1) rest := by
          rw [pack_from, Nat.lor_assoc]
        rw [hassoc]
        rw [show add_middle_lane_states state lp dp idx (f' + 2) =
          add_middle_lane_states (state ||| 0 <<< (2 * idx)) lp dp (idx + 1) (f' + 1) ++
            (if dp = 0 then []
             else add_middle_lane_states (state ||| 1 <<< (2 * idx)) lp (dp - 1) (idx + 1) (f' + 1)) ++
            (if lp = 0 then []
             else add_middle_lane_states (state ||| 2 <<< (2 * idx)) (lp - 1) dp (idx + 1) (f' + 1)) from rfl]
        interval_cases d
        · refine List.mem_append_left _ (List.mem_append_left _ ?_)
          refine ih (idx + 1) (state ||| 0 <<< (2 * idx)) lp dp rest hlen2 hdig2 ?_ ?_ (by omega)
          · simp at hc1; omega
          · simp at hc2; omega
        · have hdp : ¬(dp = 0) := by simp at hc1; omega
          refine List.mem_append_left _ (List.mem_append_right _ ?_)
          rw [if_neg hdp]
          refine ih (idx + 1) (state ||| 1 <<< (2 * idx)) lp (dp - 1) rest hlen2 hdig2 ?_ ?_ (by omega)
          · simp at hc1; omega
          · simp at hc2; omega
        · have hlp : ¬(lp = 0) := by simp at hc2; omega
          refine List.mem_append_right _ ?_
          rw [if_neg hlp]
          refine ih (idx + 1) (state ||| 2 <<< (2 * idx)) (lp - 1) dp rest hlen2 hdig2 ?_ ?_ (by omega)
          · simp at hc1; omega
          · simp at hc2; omega

/-! Evaluation lemmas for the encoder on concrete boards. -/

/-- A board whose center column is empty compresses its middle lane to
index 0. -/
theorem encode_middle_lane_of_raw_zero (b : Board) (h : raw_middle_lane b = 0) :
    encode_middle_lane b = .ok 0 := by
  unfold encode_middle_lane
  rw [h, middle_lane_compression_at_zero]
  rfl

/-- `encode_game_state_core` on a Light-to-move state, given the middle
lane compression result. -/
theorem encode_game_state_core_eval (b : Board) (l d : PlayerState) (mid : Nat)
    (hmid : encode_middle_lane b = .ok mid) :
    encode_game_state_core b l d .light =
      .ok (encode_side_lane b 2 ||| (mid <<< 6) ||| (encode_side_lane b 0 <<< 19) |||
        (d.pieceCount <<< 25) ||| (l.pieceCount <<< 28)) := by
  unfold encode_game_state_core encode_board
  rw [hmid]
  rfl

/-- C1 (counterexample): encoding the initial Finkel position (empty
board, both reserves at 7, Light to move, as produced by
`generate_initial_game_state`) yields the key 2113929216, not 603979776
as the claim states. -/
theorem claim_C1_counterexample :
    encode_game_state (generate_initial_game_state finkelConfig) = .ok 2113929216 ∧
      (2113929216 : Nat) ≠ 603979776 := by
  constructor
  · have hmid : encode_middle_lane Board.empty = .ok 0 :=
      encode_middle_lane_of_raw_zero _ rfl
    have h77 := encode_game_state_core_eval Board.empty
      ⟨.light, 7, 0⟩ ⟨.dark, 7, 0⟩ 0 hmid
    calc encode_game_state (generate_initial_game_state finkelConfig)
        = encode_game_state_core Board.empty ⟨.light, 7, 0⟩ ⟨.dark, 7, 0⟩ .light := rfl
      _ = .ok (encode_side_lane Board.empty 2 ||| (0 <<< 6) |||
          (encode_side_lane Board.empty 0 <<< 19) ||| (7 <<< 25) ||| (7 <<< 28)) := h77
      _ = .ok 2113929216 := rfl
  · decide

/-- C1 (amended): encoding the initial Finkel position (empty board,
both reserves at 7, Light to move) with
`SimpleGameStateEncoding.encode_game_state` yields the key 2113929216
(` = 7 <<< 25 ||| 7 <<< 28`); the key 603979776 is the empty-board
Light-to-move key when both reserves are 2 — the starting state of the
2-piece `finkel2p` LUT used by the repository's tests. -/
theorem claim_C1 :
    encode_game_state (generate_initial_game_state finkelConfig) = .ok 2113929216 ∧
      encode_game_state_core Board.empty ⟨.light, 2, 0⟩ ⟨.dark, 2, 0⟩ .light =
        .ok 603979776 := by
  have hmid : encode_middle_lane Board.empty = .ok 0 :=
    encode_middle_lane_of_raw_zero _ rfl
  constructor
  · exact claim_C1_counterexample.1
  · have h22 := encode_game_state_core_eval Board.empty
      ⟨.light, 2, 0⟩ ⟨.dark, 2, 0⟩ 0 hmid
    calc encode_game_state_core Board.empty ⟨.light, 2, 0⟩ ⟨.dark, 2, 0⟩ .light
        = .ok (encode_side_lane Board.empty 2 ||| (0 <<< 6) |||
          (encode_side_lane Board.empty 0 <<< 19) ||| (2 <<< 25) ||| (2 <<< 28)) := h22
      _ = .ok 603979776 := rfl

/-- C6: constructing `SimpleGameStateEncoding` always succeeds — the DFS
over the 8 center cells with both counters starting at 7 records every
center-lane digit pattern with at most 7 light (digit 2) and at most 7
dark (digit 1) pieces, the maximum compressed index 6558 lies in
`[2^12, 2^13)`, and the constructor's `RuntimeError` branch is
unreachable (the init returns the table). -/
theorem claim_C6 :
    (∀ ds : List Nat, ds.length = 8 → (∀ d ∈ ds, d ≤ 2) →
      ds.count 1 ≤ 7 → ds.count 2 ≤ 7 → pack_from 0 ds ∈ middle_lane_states) ∧
    middle_lane_compression.maximum = (6558 : Int) ∧
    2 ^ 12 ≤ 6558 ∧ 6558 < 2 ^ 13 ∧
    simple_game_state_encoding_init = .ok middle_lane_compression := by
  refine ⟨?_, middle_lane_compression_maximum, by norm_num, by norm_num,
    simple_game_state_encoding_init_ok⟩
  intro ds hlen hdig h1 h2
  have := mem_add_middle_of_digits 8 0 0 7 7 ds hlen hdig h1 h2 (by omega)
  simpa [middle_lane_states] using this

/-! The rule-engine state invariants. -/

theorem move_turn_player_player (m : Move) (ps : PlayerState) :
    (move_turn_player m ps).player = ps.player := by
  unfold move_turn_player apply_piece_introduced apply_piece_scored
  split
  · rfl
  · split <;> rfl

theorem move_other_player_player (m : Move) (ps : PlayerState) :
    (move_other_player m ps).player = ps.player := by
  unfold move_other_player apply_piece_captured
  split <;> rfl

theorem getPlayer_player {l d : PlayerState} (hl : l.player = .light)
    (hd : d.player = .dark) (t : PlayerType) : (getPlayer l d t).player = t := by
  cases t <;> simpa [getPlayer]

/-- Every reachable state keeps the light/dark player slots labelled with
the right players, and every reachable `WaitingForMove` carries exactly
the moves `find_available_moves` computed for its board, turn player and
roll. -/
theorem reachable_inv {cfg : RuleConfig} {s : GameState} (h : Reachable cfg s) :
    PlayersOk s ∧ MovesOk cfg s := by
  induction h with
  | init =>
    constructor
    · exact ⟨rfl, rfl⟩
    · intro b l d t r mvs heq
      simp [generate_initial_game_state] at heq
  | @roll b l d t r s hprev hmem ih =>
    obtain ⟨⟨hl, hd⟩, _⟩ := ih
    simp only [GameState.lightPlayer, GameState.darkPlayer] at hl hd
    simp only [apply_roll] at hmem
    split at hmem <;>
      simp only [List.mem_cons, List.not_mem_nil, or_false] at hmem <;>
      rcases hmem with rfl | rfl
    · exact ⟨⟨hl, hd⟩, by intro b' l' d' t' r' mvs' heq; simp at heq⟩
    · exact ⟨⟨hl, hd⟩, by intro b' l' d' t' r' mvs' heq; simp at heq⟩
    · exact ⟨⟨hl, hd⟩, by intro b' l' d' t' r' mvs' heq; simp at heq⟩
    · refine ⟨⟨hl, hd⟩, ?_⟩
      intro b' l' d' t' r' mvs' heq
      rw [GameState.waitingForMove.injEq] at heq
      obtain ⟨hb, hlp, hdp, ht, hr, hmv⟩ := heq
      subst hb; subst hlp; subst hdp; subst ht; subst hr; subst hmv
      rfl
  | @move b l d t r mvs m s hprev hmmem hmem ih =>
    obtain ⟨⟨hl, hd⟩, _⟩ := ih
    simp only [GameState.lightPlayer, GameState.darkPlayer] at hl hd
    have hturn2 : (move_turn_player m (getPlayer l d t)).player = t := by
      rw [move_turn_player_player]
      exact getPlayer_player hl hd t
    have hother2 : (move_other_player m (getPlayer l d t.other)).player = t.other := by
      rw [move_other_player_player]
      exact getPlayer_player hl hd t.other
    have hplayers : ∀ x : GameState,
        x.lightPlayer = (if (move_turn_player m (getPlayer l d t)).player = .light
            then move_turn_player m (getPlayer l d t)
            else move_other_player m (getPlayer l d t.other)) →
        x.darkPlayer = (if (move_turn_player m (getPlayer l d t)).player = .dark
            then move_turn_player m (getPlayer l d t)
            else move_other_player m (getPlayer l d t.other)) →
        PlayersOk x := by
      intro x hxl hxd
      constructor
      · rw [hxl]
        cases t <;> simp [hturn2, hother2, PlayerType.other] at hturn2 hother2 ⊢ <;>
          simp [hturn2, hother2]
      · rw [hxd]
        cases t <;> simp [hturn2, hother2, PlayerType.other] at hturn2 hother2 ⊢ <;>
          simp [hturn2, hother2]
    simp only [apply_move] at hmem
    split at hmem <;>
      simp only [List.mem_cons, List.not_mem_nil, or_false] at hmem <;>
      rcases hmem with rfl | rfl
    · exact ⟨⟨hl, hd⟩, by intro b' l' d' t' r' mvs' heq; simp at heq⟩
    · refine ⟨hplayers _ rfl rfl, ?_⟩
      intro b' l' d' t' r' mvs' heq
      simp at heq
    · exact ⟨⟨hl, hd⟩, by intro b' l' d' t' r' mvs' heq; simp at heq⟩
    · refine ⟨hplayers _ rfl rfl, ?_⟩
      intro b' l' d' t' r' mvs' heq
      simp at heq

/-- C3: for a `WaitingForMove` state reached by the rule engine and a
move from its available moves, when `apply_move` produces a
`WaitingForRoll` successor, that successor's turn equals the mover's turn
exactly when (the destination is a rosette and rosettes grant extra
rolls) or (the move captures and captures grant extra rolls); otherwise
the turn passes to the other player. -/
theorem claim_C3 (cfg : RuleConfig) (b : Board) (l d : PlayerState)
    (t : PlayerType) (r : Nat) (mvs : List Move) (m : Move)
    (h : Reachable cfg (.waitingForMove b l d t r mvs)) (hm : m ∈ mvs)
    (x : GameState) (b2 : Board) (l2 d2 : PlayerState) (nt : PlayerType)
    (hres : apply_move cfg b l d t r m = [x, .waitingForRoll b2 l2 d2 nt]) :
    (nt = t ↔
      (cfg.rosettesGrantExtraRolls = true ∧ m.is_dest_rosette cfg.rosettes = true) ∨
        (cfg.capturesGrantExtraRolls = true ∧ m.is_capture = true)) ∧
    (¬((cfg.rosettesGrantExtraRolls = true ∧ m.is_dest_rosette cfg.rosettes = true) ∨
        (cfg.capturesGrantExtraRolls = true ∧ m.is_capture = true)) → nt = t.other) := by
  obtain ⟨⟨hl, hd⟩, _⟩ := reachable_inv h
  simp only [GameState.lightPlayer, GameState.darkPlayer] at hl hd
  have hturn2 : (move_turn_player m (getPlayer l d t)).player = t := by
    rw [move_turn_player_player]
    exact getPlayer_player hl hd t
  simp only [apply_move] at hres
  split at hres
  · simp at hres
  · rw [List.cons.injEq, List.cons.injEq] at hres
    obtain ⟨-, h2, -⟩ := hres
    rw [GameState.waitingForRoll.injEq] at h2
    obtain ⟨-, -, -, hnt⟩ := h2
    rw [hturn2] at hnt
    have hgrant : should_grant_extra_roll cfg m = true ↔
        (cfg.rosettesGrantExtraRolls = true ∧ m.is_dest_rosette cfg.rosettes = true) ∨
          (cfg.capturesGrantExtraRolls = true ∧ m.is_capture = true) := by
      unfold should_grant_extra_roll
      simp [Bool.or_eq_true, Bool.and_eq_true]
    by_cases hg : should_grant_extra_roll cfg m = true
    · rw [if_pos hg] at hnt
      subst hnt
      exact ⟨by simp [hgrant.mp hg], fun hcontra => absurd (hgrant.mp hg) hcontra⟩
    · rw [if_neg hg] at hnt
      subst hnt
      constructor
      · constructor
        · intro habs
          exact absurd habs (PlayerType.other_ne t)
        · intro hc
          exact absurd (hgrant.mpr hc) hg
      · intro _
        rfl

/-! Concrete Finkel scenarios. -/

/-- From the Finkel starting position, a roll of 4 admits exactly the
introduction to the rosette A1 (light-path index 3). -/
theorem finkel_moves_roll4 :
    find_available_moves finkelConfig Board.empty ⟨.light, 7, 0⟩ 4 = [intro_move_a1] := by
  decide

/-- From the Finkel starting position, a roll of 1 admits exactly the
introduction to A4 (light-path index 0). -/
theorem finkel_moves_roll1 :
    find_available_moves finkelConfig Board.empty ⟨.light, 7, 0⟩ 1 = [intro_move_a4] := by
  decide

theorem finkel_roll4_apply :
    apply_roll finkelConfig Board.empty ⟨.light, 7, 0⟩ ⟨.dark, 7, 0⟩ .light 4 =
      [.rolled Board.empty ⟨.light, 7, 0⟩ ⟨.dark, 7, 0⟩ .light 4 [intro_move_a1],
       .waitingForMove Board.empty ⟨.light, 7, 0⟩ ⟨.dark, 7, 0⟩ .light 4 [intro_move_a1]] := by
  rfl

/-- The post-roll-4 `WaitingForMove` position of the Finkel opening is
reachable. -/
theorem finkel_reachable_wfm :
    Reachable finkelConfig
      (.waitingForMove Board.empty ⟨.light, 7, 0⟩ ⟨.dark, 7, 0⟩ .light 4 [intro_move_a1]) := by
  refine @Reachable.roll finkelConfig Board.empty ⟨.light, 7, 0⟩ ⟨.dark, 7, 0⟩
    .light 4 _ Reachable.init ?_
  rw [finkel_roll4_apply]
  exact List.Mem.tail _ (List.Mem.head _)

/-- C3 witness: the Finkel opening scenario instantiates the extra-turn
policy theorem — introducing to the rosette A1 keeps the turn with
Light. -/
theorem claim_C3_witness :
    (PlayerType.light = PlayerType.light ↔
      (finkelConfig.rosettesGrantExtraRolls = true ∧
        intro_move_a1.is_dest_rosette finkelConfig.rosettes = true) ∨
        (finkelConfig.capturesGrantExtraRolls = true ∧
          intro_move_a1.is_capture = true)) ∧
    (¬((finkelConfig.rosettesGrantExtraRolls = true ∧
        intro_move_a1.is_dest_rosette finkelConfig.rosettes = true) ∨
        (finkelConfig.capturesGrantExtraRolls = true ∧
          intro_move_a1.is_capture = true)) →
      PlayerType.light = PlayerType.light.other) :=
  claim_C3 finkelConfig Board.empty ⟨.light, 7, 0⟩ ⟨.dark, 7, 0⟩ .light 4
    [intro_move_a1] intro_move_a1 finkel_reachable_wfm (List.Mem.head _)
    (.moved Board.empty ⟨.light, 7, 0⟩ ⟨.dark, 7, 0⟩ .light 4 intro_move_a1)
    (intro_move_a1.apply Board.empty) ⟨.light, 6, 0⟩ ⟨.dark, 7, 0⟩ .light rfl

/-- C5 (counterexample): the tile at light-path index 3 under the Bell
paths is A1 = `Tile(1, 1)`, a rosette — not A4 = `Tile(1, 4)` as the
claim names it. -/
theorem claim_C5_counterexample :
    find_available_moves finkelConfig Board.empty ⟨.light, 7, 0⟩ 4 = [intro_move_a1] ∧
    intro_move_a1.dest = some (bell_light.getD 3 ⟨0, 0⟩) ∧
    bell_light.getD 3 ⟨0, 0⟩ = ⟨1, 1⟩ ∧
    Tile.repr ⟨1, 1⟩ = "A1" ∧
    (⟨1, 1⟩ : Tile) ≠ ⟨1, 4⟩ ∧
    Tile.repr ⟨1, 4⟩ = "A4" := by
  refine ⟨finkel_moves_roll4, by decide, by decide, by decide, by decide, by decide⟩

/-- C5 (amended): from the initial Finkel state with a roll of 4,
`find_available_moves` returns exactly one move — an introduction to the
tile at light-path index 3, which is the rosette at A1 under the Bell
paths — and applying it yields a `WaitingForRoll` whose turn is still
Light. -/
theorem claim_C5 :
    find_available_moves finkelConfig Board.empty ⟨.light, 7, 0⟩ 4 = [intro_move_a1] ∧
    intro_move_a1.source = none ∧
    intro_move_a1.dest = some (bell_light.getD 3 ⟨0, 0⟩) ∧
    bell_light.getD 3 ⟨0, 0⟩ = ⟨1, 1⟩ ∧
    (⟨1, 1⟩ : Tile) ∈ standard_rosettes ∧
    apply_move finkelConfig Board.empty ⟨.light, 7, 0⟩ ⟨.dark, 7, 0⟩ .light 4 intro_move_a1 =
      [.moved Board.empty ⟨.light, 7, 0⟩ ⟨.dark, 7, 0⟩ .light 4 intro_move_a1,
       .waitingForRoll (intro_move_a1.apply Board.empty) ⟨.light, 6, 0⟩ ⟨.dark, 7, 0⟩ .light] := by
  exact ⟨finkel_moves_roll4, rfl, by decide, by decide, by decide, rfl⟩

/-- C8: `BinaryDice0AsMax(3).get_max_roll_value()` raises
`AttributeError` — its body reads `self.max_roll_value`, but the class
chain defines only the slot `_max_roll_value` (set to `num_die + 1 = 4`,
the value the spec expects) and no attribute named `max_roll_value`;
`get_roll_probabilities()` does return `[0, 3/8, 3/8, 1/8, 1/8]`. -/
theorem claim_C8 :
    binary_dice_0_as_max_get_max_roll_value 3 =
      .error "AttributeError: max_roll_value" ∧
    binary_dice_0_as_max_roll_probabilities 3 = [0, 3/8, 3/8, 1/8, 1/8] ∧
    binary_dice_0_as_max_stored_max_roll_value 3 = 4 := by
  refine ⟨rfl, ?_, rfl⟩
  have h : binary_dice_roll_probabilities 3 = [1/8, 3/8, 3/8, 1/8] := by
    norm_num [binary_dice_roll_probabilities, binary_dice_probs_go]
  show (0 : ℚ) :: ((binary_dice_roll_probabilities 3).tail ++
    [(binary_dice_roll_probabilities 3).headD 0]) = [0, 3/8, 3/8, 1/8, 1/8]
  rw [h]
  norm_num

/-- C9: `Game.make_move` with a `Tile`.  The `RuleSet.paths` property is
missing its `return` (it yields `None`), so `Move.get_source(None)` on
the introducing move raises `RuntimeError` instead of matching the move
via the path start tile A5; had `paths` been returned, the start tile
would have resolved to A5 as the claim describes.  The no-match branch
raises `UnboundLocalError` (the `ValueError`'s f-string references the
unbound local `piece`), while the `Piece` branch does raise the
documented `ValueError`. -/
theorem claim_C9 :
    rule_set_paths finkelConfig = none ∧
    find_available_moves finkelConfig Board.empty ⟨.light, 7, 0⟩ 4 = [intro_move_a1] ∧
    make_move_with_tile finkelConfig [intro_move_a1] ⟨1, 5⟩ =
      .error (.runtimeError "This move has no source, as it is introducing a piece") ∧
    move_get_source intro_move_a1 (some finkelConfig) = .ok ⟨1, 5⟩ ∧
    make_move_with_tile_go none ⟨1, 5⟩ [] = .error (.unboundLocalError "piece") ∧
    make_move_with_piece [] ⟨.light, 0⟩ =
      .error (.valueError "The piece cannot be moved") := by
  exact ⟨rfl, finkel_moves_roll4, rfl, rfl, rfl, rfl⟩

/-- C10: the `PathPair.name` property getter returns `self.name` — the
property itself — so it recurses without ever producing a value, for
every path pair and every recursion budget; the `_name` field is
nonetheless set on all five standard variants and is what `__eq__`
compares. -/
theorem claim_C10 :
    (∀ (p : PathPairObj) (fuel : Nat), path_pair_name p fuel = none) ∧
    bellPathPair.nameField = "Bell" ∧
    asebPathPair.nameField = "Aseb" ∧
    mastersPathPair.nameField = "Masters" ∧
    murrayPathPair.nameField = "Murray" ∧
    skiriukPathPair.nameField = "Skiriuk" ∧
    path_pair_eq bellPathPair bellPathPair = true ∧
    path_pair_eq bellPathPair asebPathPair = false := by
  refine ⟨?_, rfl, rfl, rfl, rfl, rfl, by decide, by decide⟩
  intro p fuel
  induction fuel with
  | zero => rfl
  | succ f ih =>
    rw [path_pair_name]
    exact ih

/-! Piece conservation (C4). -/

/-- Updating one cell of the board changes a `countP` over a
duplicate-free cell list by swapping that cell's contribution. -/
theorem countP_update (q : Option Piece → Bool) : ∀ (tiles : List Tile), tiles.Nodup →
    ∀ (f : Board) (t : Tile), t ∈ tiles → ∀ (v : Option Piece),
    tiles.countP (fun u => q (Board.set f t v u)) + (if q (f t) then 1 else 0) =
      tiles.countP (fun u => q (f u)) + (if q v then 1 else 0) := by
  intro tiles
  induction tiles with
  | nil => intro _ f t ht; exact absurd ht (List.not_mem_nil t)
  | cons a rest ih =>
    intro hnodup f t ht v
    have hna : a ∉ rest := (List.nodup_cons.mp hnodup).1
    have hrest_nodup : rest.Nodup := (List.nodup_cons.mp hnodup).2
    rw [List.countP_cons, List.countP_cons]
    rcases Decidable.em (t = a) with heq | hne
    · subst heq
      have hhead : Board.set f t v t = v := by
        unfold Board.set
        rw [if_pos rfl]
      have hrest : rest.countP (fun u => q (Board.set f t v u)) =
          rest.countP (fun u => q (f u)) := by
        apply List.countP_congr
        intro u hu
        unfold Board.set
        rw [if_neg]
        intro he
        subst he
        exact absurd hu hna
      rw [hhead, hrest]
      omega
    · have ht2 : t ∈ rest := by
        rcases List.mem_cons.mp ht with h | h
        · exact absurd h hne
        · exact h
      have hhead : Board.set f t v a = f a := by
        unfold Board.set
        rw [if_neg]
        intro he
        exact hne he.symm
      have := ih hrest_nodup f t ht2 v
      rw [hhead]
      omega

/-- `count_pieces` as a `countP` (definitional repackaging used by the
update lemma). -/
theorem count_pieces_eq_countP (tiles : List Tile) (b : Board) (pl : PlayerType) :
    count_pieces tiles b pl =
      tiles.countP (fun u =>
        (fun op => match op with
          | some piece => decide (piece.owner = pl)
          | none => false) (b u)) := rfl

theorem count_pieces_set (tiles : List Tile) (hnodup : tiles.Nodup) (b : Board)
    (t : Tile) (ht : t ∈ tiles) (v : Option Piece) (pl : PlayerType) :
    count_pieces tiles (b.set t v) pl + (if piece_occ pl (b t) then 1 else 0) =
      count_pieces tiles b pl + (if piece_occ pl v then 1 else 0) :=
  countP_update (piece_occ pl) tiles hnodup b t ht v

/-- Facts about the move emitted by `move_candidate_dest`. -/
theorem move_candidate_dest_ok {cfg : RuleConfig} {b : Board} {pt : PlayerType}
    {src : Option Tile} {srcp : Option Piece} {j : Nat} {path : List Tile} {m : Move}
    (hm : move_candidate_dest cfg b pt src srcp j path = some m) :
    m.player = pt ∧ m.source = src ∧ m.sourcePiece = srcp ∧
    m.dest = some (path.getD j ⟨0, 0⟩) ∧ m.destPiece = some ⟨pt, j⟩ ∧
    ((b (path.getD j ⟨0, 0⟩) = none ∧ m.capturedPiece = none) ∨
      (∃ cp, b (path.getD j ⟨0, 0⟩) = some cp ∧ cp.owner ≠ pt ∧
        m.capturedPiece = some cp)) := by
  simp only [move_candidate_dest] at hm
  split at hm
  · rename_i dp hdp
    split at hm
    · exact absurd hm (by simp)
    · split at hm
      · exact absurd hm (by simp)
      · rename_i hown _
        rw [Option.some.injEq] at hm
        subst hm
        exact ⟨rfl, rfl, rfl, rfl, rfl, Or.inr ⟨dp, hdp, hown, rfl⟩⟩
  · rename_i hempty
    rw [Option.some.injEq] at hm
    subst hm
    exact ⟨rfl, rfl, rfl, rfl, rfl, Or.inl ⟨hempty, rfl⟩⟩

theorem path_subset_of_cfg {cfg : RuleConfig} (hcfg : CfgOk cfg) (pt : PlayerType) :
    ∀ t ∈ cfg.path pt, t ∈ cfg.shapeTiles := by
  cases pt
  · exact hcfg.light_subset
  · exact hcfg.dark_subset

theorem getD_mem_of_lt {path : List Tile} {j : Nat} (hj : j < path.length) :
    path.getD j ⟨0, 0⟩ ∈ path := by
  rw [List.getD_eq_getElem path ⟨0, 0⟩ hj]
  exact List.getElem_mem hj

/-- Every move returned by `find_available_moves` satisfies `MoveOk`:
the facts the conservation argument needs about sources, destinations
and captures. -/
theorem find_available_moves_ok {cfg : RuleConfig} {b : Board}
    {player : PlayerState} {roll : Nat} {m : Move} (hcfg : CfgOk cfg)
    (hm : m ∈ find_available_moves cfg b player roll) :
    MoveOk cfg b player m := by
  simp only [find_available_moves] at hm
  split at hm
  · exact absurd hm (List.not_mem_nil m)
  · rename_i hroll0
    have hroll1 : 1 ≤ roll := Nat.one_le_iff_ne_zero.mpr hroll0
    rcases List.mem_append.mp hm with hs | hf
    · -- the scoring move
      split at hs
      · rename_i hrle
        split at hs
        · rename_i scorePiece hsp
          split at hs
          · rename_i hcond
            rw [List.mem_singleton] at hs
            subst hs
            have hidx : (cfg.path player.player).length - roll <
                (cfg.path player.player).length := by omega
            refine ⟨?_, ?_, ?_, ?_, ?_, ?_, ?_, ?_⟩
            · intro s hsrc
              rw [Option.some.injEq] at hsrc
              subst hsrc
              exact path_subset_of_cfg hcfg player.player _ (getD_mem_of_lt hidx)
            · intro s hsrc
              rw [Option.some.injEq] at hsrc
              subst hsrc
              exact ⟨scorePiece, hsp, rfl, hcond.1⟩
            · intro hsrc
              simp at hsrc
            · intro t hdest
              simp at hdest
            · intro t hdest
              simp at hdest
            · intro t hdest
              simp at hdest
            · intro _
              exact ⟨rfl, rfl⟩
            · intro s t _ hdest
              simp at hdest
          · exact absurd hs (List.not_mem_nil m)
        · exact absurd hs (List.not_mem_nil m)
      · exact absurd hs (List.not_mem_nil m)
    · -- the range(-1, len - roll) loop
      obtain ⟨idx, hidx_mem, hbody⟩ := List.mem_filterMap.mp hf
      have hrle : roll ≤ (cfg.path player.player).length := by
        rcases Decidable.em (roll ≤ (cfg.path player.player).length) with h | h
        · exact h
        · rw [if_neg h] at hidx_mem
          exact absurd hidx_mem (List.not_mem_nil idx)
      rw [if_pos hrle] at hidx_mem
      rcases idx with _ | i
      · simp only [move_candidate] at hbody
        split at hbody
        · rename_i hpc
          have hj : roll - 1 < (cfg.path player.player).length := by omega
          obtain ⟨hp, hsrc, hsp, hdest, hdp, hocc⟩ := move_candidate_dest_ok hbody
          refine ⟨?_, ?_, ?_, ?_, ?_, ?_, ?_, ?_⟩
          · intro s hs
            rw [hsrc] at hs
            simp at hs
          · intro s hs
            rw [hsrc] at hs
            simp at hs
          · intro _
            exact ⟨hsp, hpc, by rw [hdest]; simp⟩
          · intro t ht
            rw [hdest, Option.some.injEq] at ht
            subst ht
            exact path_subset_of_cfg hcfg player.player _ (getD_mem_of_lt hj)
          · intro t ht
            rw [hdest, Option.some.injEq] at ht
            subst ht
            exact ⟨roll - 1, by rw [hdp]⟩
          · intro t ht
            rw [hdest, Option.some.injEq] at ht
            subst ht
            exact hocc
          · intro hd
            rw [hdest] at hd
            simp at hd
          · intro s t hs _
            rw [hsrc] at hs
            simp at hs
        · exact absurd hbody (by simp)
      · simp only [move_candidate] at hbody
        have hi : i < (cfg.path player.player).length - roll := by
          rcases List.mem_cons.mp hidx_mem with h | h
          · simp at h
          · obtain ⟨i2, hi2, he⟩ := List.mem_map.mp h
            rw [Option.some.injEq] at he
            subst he
            exact List.mem_range.mp hi2
        have hilt : i < (cfg.path player.player).length := by omega
        have hj : i + roll < (cfg.path player.player).length := by omega
        split at hbody
        · rename_i piece hpc
          split at hbody
          · rename_i hcond
            obtain ⟨hp, hsrc, hsp, hdest, hdp, hocc⟩ := move_candidate_dest_ok hbody
            have howner : piece.owner = player.player := hcond.1
            refine ⟨?_, ?_, ?_, ?_, ?_, ?_, ?_, ?_⟩
            · intro s hs
              rw [hsrc, Option.some.injEq] at hs
              subst hs
              exact path_subset_of_cfg hcfg player.player _ (getD_mem_of_lt hilt)
            · intro s hs
              rw [hsrc, Option.some.injEq] at hs
              subst hs
              exact ⟨piece, hpc, hsp, howner⟩
            · intro hs
              rw [hsrc] at hs
              simp at hs
            · intro t ht
              rw [hdest, Option.some.injEq] at ht
              subst ht
              exact path_subset_of_cfg hcfg player.player _ (getD_mem_of_lt hj)
            · intro t ht
              rw [hdest, Option.some.injEq] at ht
              subst ht
              exact ⟨i + roll, by rw [hdp]⟩
            · intro t ht
              rw [hdest, Option.some.injEq] at ht
              subst ht
              exact hocc
            · intro hd
              rw [hdest] at hd
              simp at hd
            · intro s t hs ht
              rw [hsrc, Option.some.injEq] at hs
              rw [hdest, Option.some.injEq] at ht
              subst hs
              subst ht
              intro he
              rcases hocc with ⟨hbt, -⟩ | ⟨cp, hbt, hcp, -⟩
              · rw [← he, hpc] at hbt
                simp at hbt
              · rw [← he, hpc] at hbt
                rw [Option.some.injEq] at hbt
                subst hbt
                exact hcp howner
          · exact absurd hbody (by simp)
        · exact absurd hbody (by simp)

theorem piece_occ_some (pl : PlayerType) (p : Piece) :
    piece_occ pl (some p) = decide (p.owner = pl) := rfl

theorem piece_occ_none (pl : PlayerType) : piece_occ pl none = false := rfl

/-- Applying a move produced by `find_available_moves` preserves piece
conservation for both players. -/
theorem conserved_after_move {cfg : RuleConfig} {b : Board} {l d : PlayerState}
    {t : PlayerType} {m : Move} (hcfg : CfgOk cfg)
    (hl : l.player = .light) (hd : d.player = .dark)
    (hok : MoveOk cfg b (getPlayer l d t) m)
    (hcons : ∀ pl, (getPlayer l d pl).pieceCount +
      count_pieces cfg.shapeTiles b pl + (getPlayer l d pl).score =
      cfg.startingPieceCount) :
    ∀ pl, (getPlayer
        (if (move_turn_player m (getPlayer l d t)).player = .light
          then move_turn_player m (getPlayer l d t)
          else move_other_player m (getPlayer l d t.other))
        (if (move_turn_player m (getPlayer l d t)).player = .dark
          then move_turn_player m (getPlayer l d t)
          else move_other_player m (getPlayer l d t.other)) pl).pieceCount +
      count_pieces cfg.shapeTiles (m.apply b) pl +
      (getPlayer
        (if (move_turn_player m (getPlayer l d t)).player = .light
          then move_turn_player m (getPlayer l d t)
          else move_other_player m (getPlayer l d t.other))
        (if (move_turn_player m (getPlayer l d t)).player = .dark
          then move_turn_player m (getPlayer l d t)
          else move_other_player m (getPlayer l d t.other)) pl).score =
      cfg.startingPieceCount := by
  intro pl
  have hmover : (getPlayer l d t).player = t := getPlayer_player hl hd t
  have hturn2 : (move_turn_player m (getPlayer l d t)).player = t := by
    rw [move_turn_player_player, hmover]
  have hre : getPlayer
      (if (move_turn_player m (getPlayer l d t)).player = .light
        then move_turn_player m (getPlayer l d t)
        else move_other_player m (getPlayer l d t.other))
      (if (move_turn_player m (getPlayer l d t)).player = .dark
        then move_turn_player m (getPlayer l d t)
        else move_other_player m (getPlayer l d t.other)) pl =
      (if pl = t then move_turn_player m (getPlayer l d t)
       else move_other_player m (getPlayer l d t.other)) := by
    rw [hturn2]
    cases t <;> cases pl <;> simp [getPlayer, PlayerType.other]
  rw [hre]
  rcases hsrc_cases : m.source with _ | s
  · -- introducing
    obtain ⟨hsp_none, hpc_pos, hdest_ne⟩ := hok.intro_ok hsrc_cases
    rcases hdest_cases : m.dest with _ | tt
    · exact absurd hdest_cases hdest_ne
    obtain ⟨j, hdp⟩ := hok.dest_piece tt hdest_cases
    rw [hmover] at hdp
    have ht_mem := hok.dest_mem tt hdest_cases
    have hb2 : m.apply b = b.set tt m.destPiece := by
      simp [Move.apply, hsrc_cases, hdest_cases]
    have htp : move_turn_player m (getPlayer l d t) =
        apply_piece_introduced (getPlayer l d t) := by
      simp [move_turn_player, Move.is_introducing_piece, hsrc_cases]
    have e2 := count_pieces_set cfg.shapeTiles hcfg.nodup b tt ht_mem m.destPiece pl
    rw [hdp] at e2
    rcases hok.dest_occupant tt hdest_cases with ⟨hbt, hcap⟩ | ⟨cp, hbt, hcp, hcap⟩
    · -- introduce to an empty tile
      have hop : move_other_player m (getPlayer l d t.other) =
          getPlayer l d t.other := by
        simp [move_other_player, Move.is_capture, hcap]
      rw [hbt] at e2
      rcases Decidable.em (pl = t) with hpl | hpl
      · subst hpl
        rw [if_pos rfl, htp, hb2, hdp]
        have := hcons pl
        simp [piece_occ_some, piece_occ_none] at e2
        unfold apply_piece_introduced
        simp only []
        omega
      · have hples : pl = t.other := PlayerType.eq_other_of_ne hpl
        subst hples
        rw [if_neg hpl, hop, hb2, hdp]
        have := hcons t.other
        have htne : ¬(t = t.other) := fun hcc => PlayerType.other_ne t hcc.symm
        simp [piece_occ_some, piece_occ_none, htne] at e2
        omega
    · -- introduce with capture
      have hop : move_other_player m (getPlayer l d t.other) =
          apply_piece_captured (getPlayer l d t.other) := by
        simp [move_other_player, Move.is_capture, hcap]
      rw [hbt] at e2
      have hcp_other : cp.owner = t.other := by
        rw [hmover] at hcp
        exact PlayerType.eq_other_of_ne hcp
      rcases Decidable.em (pl = t) with hpl | hpl
      · subst hpl
        rw [if_pos rfl, htp, hb2, hdp]
        have := hcons pl
        have hcpne : ¬(cp.owner = pl) := by
          rw [hcp_other]
          intro hcc
          exact PlayerType.other_ne pl hcc
        simp [piece_occ_some, piece_occ_none, hcpne] at e2
        unfold apply_piece_introduced
        simp only []
        omega
      · have hples : pl = t.other := PlayerType.eq_other_of_ne hpl
        subst hples
        rw [if_neg hpl, hop, hb2, hdp]
        have := hcons t.other
        have htne : ¬(t = t.other) := fun hcc => PlayerType.other_ne t hcc.symm
        simp [piece_occ_some, piece_occ_none, htne, hcp_other] at e2
        unfold apply_piece_captured
        simp only []
        omega
  · -- moving a piece already on the board
    obtain ⟨sp, hbs, hsp, howner⟩ := hok.src_piece s hsrc_cases
    rw [hmover] at howner
    have hs_mem := hok.src_mem s hsrc_cases
    have e1 := count_pieces_set cfg.shapeTiles hcfg.nodup b s hs_mem none pl
    rw [hbs] at e1
    rcases hdest_cases : m.dest with _ | tt
    · -- scoring
      obtain ⟨hdp_none, hcap⟩ := hok.score_ok hdest_cases
      have hb2 : m.apply b = b.set s none := by
        simp [Move.apply, hsrc_cases, hdest_cases]
      have htp : move_turn_player m (getPlayer l d t) =
          apply_piece_scored (getPlayer l d t) := by
        simp [move_turn_player, Move.is_introducing_piece, Move.is_scoring_piece,
          hsrc_cases, hdest_cases]
      have hop : move_other_player m (getPlayer l d t.other) =
          getPlayer l d t.other := by
        simp [move_other_player, Move.is_capture, hcap]
      rcases Decidable.em (pl = t) with hpl | hpl
      · subst hpl
        rw [if_pos rfl, htp, hb2]
        have := hcons pl
        simp [piece_occ_some, piece_occ_none, howner] at e1
        unfold apply_piece_scored
        simp only []
        omega
      · have hples : pl = t.other := PlayerType.eq_other_of_ne hpl
        subst hples
        rw [if_neg hpl, hop, hb2]
        have := hcons t.other
        have hspne : ¬(sp.owner = t.other) := by
          rw [howner]
          intro hcc
          exact PlayerType.other_ne t hcc.symm
        simp [piece_occ_some, piece_occ_none, hspne] at e1
        omega
    · -- a plain board move
      obtain ⟨j, hdp⟩ := hok.dest_piece tt hdest_cases
      rw [hmover] at hdp
      have ht_mem := hok.dest_mem tt hdest_cases
      have hne := hok.src_ne_dest s tt hsrc_cases hdest_cases
      have hb2 : m.apply b = (b.set s none).set tt m.destPiece := by
        simp [Move.apply, hsrc_cases, hdest_cases]
      have htp : move_turn_player m (getPlayer l d t) = getPlayer l d t := by
        simp [move_turn_player, Move.is_introducing_piece, Move.is_scoring_piece,
          hsrc_cases, hdest_cases]
      have e2 := count_pieces_set cfg.shapeTiles hcfg.nodup (b.set s none) tt
        ht_mem m.destPiece pl
      have hb1tt : Board.set b s none tt = b tt := by
        unfold Board.set
        rw [if_neg]
        intro hcc
        exact hne hcc.symm
      rw [hb1tt, hdp] at e2
      rcases hok.dest_occupant tt hdest_cases with ⟨hbt, hcap⟩ | ⟨cp, hbt, hcp, hcap⟩
      · -- landing on an empty tile
        have hop : move_other_player m (getPlayer l d t.other) =
            getPlayer l d t.other := by
          simp [move_other_player, Move.is_capture, hcap]
        rw [hbt] at e2
        rcases Decidable.em (pl = t) with hpl | hpl
        · subst hpl
          rw [if_pos rfl, htp, hb2, hdp]
          have := hcons pl
          simp [piece_occ_some, piece_occ_none, howner] at e1 e2
          omega
        · have hples : pl = t.other := PlayerType.eq_other_of_ne hpl
          subst hples
          rw [if_neg hpl, hop, hb2, hdp]
          have := hcons t.other
          have hspne : ¬(sp.owner = t.other) := by
            rw [howner]
            intro hcc
            exact PlayerType.other_ne t hcc.symm
          have htne : ¬(t = t.other) := fun hcc => PlayerType.other_ne t hcc.symm
          simp [piece_occ_some, piece_occ_none, hspne, htne] at e1 e2
          omega
      · -- capturing
        have hop : move_other_player m (getPlayer l d t.other) =
            apply_piece_captured (getPlayer l d t.other) := by
          simp [move_other_player, Move.is_capture, hcap]
        rw [hbt] at e2
        have hcp_other : cp.owner = t.other := by
          rw [hmover] at hcp
          exact PlayerType.eq_other_of_ne hcp
        rcases Decidable.em (pl = t) with hpl | hpl
        · subst hpl
          rw [if_pos rfl, htp, hb2, hdp]
          have := hcons pl
          have hcpne : ¬(cp.owner = pl) := by
            rw [hcp_other]
            intro hcc
            exact PlayerType.other_ne pl hcc
          simp [piece_occ_some, piece_occ_none, howner, hcpne] at e1 e2
          omega
        · have hples : pl = t.other := PlayerType.eq_other_of_ne hpl
          subst hples
          rw [if_neg hpl, hop, hb2, hdp]
          have := hcons t.other
          have hspne : ¬(sp.owner = t.other) := by
            rw [howner]
            intro hcc
            exact PlayerType.other_ne t hcc.symm
          have htne : ¬(t = t.other) := fun hcc => PlayerType.other_ne t hcc.symm
          simp [piece_occ_some, piece_occ_none, hspne, htne, hcp_other] at e1 e2
          unfold apply_piece_captured
          simp only []
          omega

/-- Piece conservation holds in every state reachable by the rule engine
under a well-formed configuration. -/
theorem reachable_conserved {cfg : RuleConfig} (hcfg : CfgOk cfg)
    {s : GameState} (h : Reachable cfg s) : Conserved cfg s := by
  induction h with
  | init =>
    intro pl
    have hempty : count_pieces cfg.shapeTiles Board.empty pl = 0 := by
      unfold count_pieces Board.empty
      simp
    cases pl <;>
      simp [generate_initial_game_state, GameState.lightPlayer,
        GameState.darkPlayer, GameState.board, getPlayer, hempty]
  | @roll b l d t r s hprev hmem ih =>
    simp only [apply_roll] at hmem
    split at hmem <;>
      simp only [List.mem_cons, List.not_mem_nil, or_false] at hmem <;>
      rcases hmem with rfl | rfl <;>
      exact ih
  | @move b l d t r mvs m s hprev hmmem hmem ih =>
    obtain ⟨⟨hl, hd⟩, hmoves⟩ := reachable_inv hprev
    simp only [GameState.lightPlayer, GameState.darkPlayer] at hl hd
    have hmvs : mvs = find_available_moves cfg b (getPlayer l d t) r :=
      hmoves b l d t r mvs rfl
    have hok : MoveOk cfg b (getPlayer l d t) m :=
      find_available_moves_ok hcfg (hmvs ▸ hmmem)
    have hcons : ∀ pl, (getPlayer l d pl).pieceCount +
        count_pieces cfg.shapeTiles b pl + (getPlayer l d pl).score =
        cfg.startingPieceCount := ih
    have hstep := conserved_after_move hcfg hl hd hok hcons
    simp only [apply_move] at hmem
    split at hmem <;>
      simp only [List.mem_cons, List.not_mem_nil, or_false] at hmem <;>
      rcases hmem with rfl | rfl
    · exact ih
    · exact hstep
    · exact ih
    · exact hstep

/-- C4: in every state reached by the rule engine — the initial state of
`generate_initial_game_state`, advanced only through `apply_roll` with
arbitrary rolls and `apply_move` with moves drawn from the stored
available-move list — each player's reserve `pieceCount`, plus the number
of that player's pieces on the board, plus their `score`, equals the
configuration's `startingPieceCount`.  Stated for any configuration whose
shape cell list is duplicate-free and whose two paths stay on the shape,
which the witness checks for the Finkel configuration. -/
theorem claim_C4 (cfg : RuleConfig) (hnodup : cfg.shapeTiles.Nodup)
    (hlight : ∀ t ∈ cfg.lightPath, t ∈ cfg.shapeTiles)
    (hdark : ∀ t ∈ cfg.darkPath, t ∈ cfg.shapeTiles)
    (s : GameState) (h : Reachable cfg s) (pl : PlayerType) :
    (getPlayer s.lightPlayer s.darkPlayer pl).pieceCount +
      count_pieces cfg.shapeTiles s.board pl +
      (getPlayer s.lightPlayer s.darkPlayer pl).score =
    cfg.startingPieceCount :=
  reachable_conserved ⟨hnodup, hlight, hdark⟩ h pl

theorem claim_C4_witness :
    (finkelConfig.shapeTiles.Nodup ∧
      (∀ t ∈ finkelConfig.lightPath, t ∈ finkelConfig.shapeTiles) ∧
      (∀ t ∈ finkelConfig.darkPath, t ∈ finkelConfig.shapeTiles)) ∧
    (getPlayer (generate_initial_game_state finkelConfig).lightPlayer
        (generate_initial_game_state finkelConfig).darkPlayer .light).pieceCount +
      count_pieces finkelConfig.shapeTiles
        (generate_initial_game_state finkelConfig).board .light +
      (getPlayer (generate_initial_game_state finkelConfig).lightPlayer
        (generate_initial_game_state finkelConfig).darkPlayer .light).score =
    finkelConfig.startingPieceCount :=
  ⟨⟨by decide, by decide, by decide⟩,
    claim_C4 finkelConfig (by decide) (by decide) (by decide) _
      Reachable.init .light⟩

/-- C2: when a move considered by `LutAgent.play` yields a non-terminal
successor with Dark to move, the agent values that move by inverting the
state (`copy_inverted`, modelled from the spec: pieces swapped, reserves
swapped, turn re-marked as Light), encoding the inverted state, looking
the key up, and using `65535 - value`; the inversion always completes and
hands the encoder a Light-to-move state.  The bound `v ≤ 65535` records
that LUT values are 16-bit (the reader unpacks `uint16`), under which the
truncated `Nat` subtraction agrees with Python's. -/
theorem claim_C2 (lut : Nat → Option Nat) (cfg : RuleConfig) (board : Board)
    (l d : PlayerState) (turn : PlayerType) (roll : Nat) (m : Move)
    (x : GameState) (b2 : Board) (l2 d2 : PlayerState) (key v : Nat)
    (happly : apply_move cfg board l d turn roll m =
      [x, .waitingForRoll b2 l2 d2 .dark])
    (hkey : encode_game_state
      (copy_inverted (.waitingForRoll b2 l2 d2 .dark)) = .ok key)
    (hv : lut key = some v) (hle : v ≤ 65535) :
    lut_value_of_move lut cfg board l d turn roll m = some (65535 - v) ∧
      (copy_inverted (.waitingForRoll b2 l2 d2 .dark)).turn = some .light := by
  constructor
  · unfold lut_value_of_move
    rw [happly]
    have hturn : (GameState.waitingForRoll b2 l2 d2 .dark).turn = some .dark := rfl
    simp only [hturn]
    rw [if_pos (by simp)]
    rw [hkey]
    show Option.map (fun value => 65535 - value) (lut key) = some (65535 - v)
    rw [hv]
    rfl
  · rfl

theorem claim_C2_witness :
    apply_move finkelConfig Board.empty ⟨.light, 7, 0⟩ ⟨.dark, 7, 0⟩ .light 1
        intro_move_a4 =
      [.moved Board.empty ⟨.light, 7, 0⟩ ⟨.dark, 7, 0⟩ .light 1 intro_move_a4,
       .waitingForRoll board_a4 ⟨.light, 6, 0⟩ ⟨.dark, 7, 0⟩ .dark] ∧
    encode_game_state
        (copy_inverted (.waitingForRoll board_a4 ⟨.light, 6, 0⟩ ⟨.dark, 7, 0⟩ .dark)) =
      .ok 2080374792 ∧
    lut_const 40000 2080374792 = some 40000 ∧ (40000 : Nat) ≤ 65535 ∧
    (lut_value_of_move (lut_const 40000) finkelConfig Board.empty
        ⟨.light, 7, 0⟩ ⟨.dark, 7, 0⟩ .light 1 intro_move_a4 = some 25535 ∧
      (copy_inverted
        (.waitingForRoll board_a4 ⟨.light, 6, 0⟩ ⟨.dark, 7, 0⟩ .dark)).turn =
        some .light) := by
  have happly : apply_move finkelConfig Board.empty ⟨.light, 7, 0⟩ ⟨.dark, 7, 0⟩
      .light 1 intro_move_a4 =
      [.moved Board.empty ⟨.light, 7, 0⟩ ⟨.dark, 7, 0⟩ .light 1 intro_move_a4,
       .waitingForRoll board_a4 ⟨.light, 6, 0⟩ ⟨.dark, 7, 0⟩ .dark] := rfl
  have hmid : encode_middle_lane (Board.inverted board_a4) = .ok 0 :=
    encode_middle_lane_of_raw_zero _ rfl
  have hcore := encode_game_state_core_eval (Board.inverted board_a4)
    ⟨.light, 7, 0⟩ ⟨.dark, 6, 0⟩ 0 hmid
  have hkey : encode_game_state
      (copy_inverted (.waitingForRoll board_a4 ⟨.light, 6, 0⟩ ⟨.dark, 7, 0⟩ .dark)) =
      .ok 2080374792 := by
    have h1 : encode_game_state
        (copy_inverted (.waitingForRoll board_a4 ⟨.light, 6, 0⟩ ⟨.dark, 7, 0⟩ .dark)) =
        encode_game_state_core (Board.inverted board_a4)
          ⟨.light, 7, 0⟩ ⟨.dark, 6, 0⟩ .light := rfl
    rw [h1, hcore]
    rfl
  refine ⟨happly, hkey, rfl, by decide, ?_⟩
  have h := claim_C2 (lut_const 40000) finkelConfig Board.empty
    ⟨.light, 7, 0⟩ ⟨.dark, 7, 0⟩ .light 1 intro_move_a4
    (.moved Board.empty ⟨.light, 7, 0⟩ ⟨.dark, 7, 0⟩ .light 1 intro_move_a4)
    board_a4 ⟨.light, 6, 0⟩ ⟨.dark, 7, 0⟩ 2080374792 40000 happly hkey rfl
    (by decide)
  exact h

/-! The LUT agent's selection fold (C7). -/

/-- A move the fold hands back was the incoming best or one of the moves
folded over. -/
theorem lut_fold_mem (f : Move → Option Nat) :
    ∀ (ms : List Move) (acc res : Nat × Option Move),
    ms.foldlM (fun acc m => (f m).map
      (fun value => if acc.1 < value then (value, some m) else acc)) acc =
      some res →
    ∀ mv, res.2 = some mv → acc.2 = some mv ∨ mv ∈ ms := by
  intro ms
  induction ms with
  | nil =>
    intro acc res h mv hmv
    simp only [List.foldlM_nil, Option.pure_def, Option.some.injEq] at h
    subst h
    exact Or.inl hmv
  | cons m rest ih =>
    intro acc res h mv hmv
    rw [List.foldlM_cons] at h
    rcases hfm : f m with _ | v
    · rw [hfm] at h
      simp at h
    · rw [hfm] at h
      simp only [Option.map_some', Option.bind_eq_bind, Option.some_bind] at h
      rcases ih _ _ h mv hmv with hacc | hmem
      · by_cases hlt : acc.1 < v
        · rw [if_pos hlt] at hacc
          simp at hacc
          subst hacc
          exact Or.inr (List.mem_cons_self m rest)
        · rw [if_neg hlt] at hacc
          exact Or.inl hacc
      · exact Or.inr (List.mem_cons_of_mem m hmem)

/-- A failed valuation anywhere in the list aborts the whole fold. -/
theorem lut_fold_none (f : Move → Option Nat) :
    ∀ (ms : List Move) (acc : Nat × Option Move) (m : Move),
    m ∈ ms → f m = none →
    ms.foldlM (fun acc m => (f m).map
      (fun value => if acc.1 < value then (value, some m) else acc)) acc =
      none := by
  intro ms
  induction ms with
  | nil =>
    intro acc m hm
    exact absurd hm (List.not_mem_nil m)
  | cons a rest ih =>
    intro acc m hm hnone
    rw [List.foldlM_cons]
    rcases List.mem_cons.mp hm with rfl | hm2
    · rw [hnone]
      rfl
    · rcases hfa : f a with _ | v
      · rfl
      · simp only [Option.map_some', Option.bind_eq_bind, Option.some_bind]
        exact ih _ m hm2 hnone

/-- When no value strictly beats the incoming best, the fold returns the
accumulator unchanged. -/
theorem lut_fold_le (f : Move → Option Nat) :
    ∀ (ms : List Move) (acc : Nat × Option Move),
    (∀ m ∈ ms, ∃ v, f m = some v ∧ v ≤ acc.1) →
    ms.foldlM (fun acc m => (f m).map
      (fun value => if acc.1 < value then (value, some m) else acc)) acc =
      some acc := by
  intro ms
  induction ms with
  | nil =>
    intro acc h
    rfl
  | cons a rest ih =>
    intro acc h
    obtain ⟨v, hv, hle⟩ := h a (List.mem_cons_self a rest)
    rw [List.foldlM_cons, hv]
    simp only [Option.map_some', Option.bind_eq_bind, Option.some_bind]
    rw [if_neg (by omega)]
    exact ih acc (fun m hm => h m (List.mem_cons_of_mem a hm))

/-- While every value stays strictly below a bound, the running best
stays strictly below it too. -/
theorem lut_fold_lt (f : Move → Option Nat) (v : Nat) :
    ∀ (ms : List Move) (acc : Nat × Option Move),
    (∀ m ∈ ms, ∃ v2, f m = some v2 ∧ v2 < v) → acc.1 < v →
    ∃ res, ms.foldlM (fun acc m => (f m).map
      (fun value => if acc.1 < value then (value, some m) else acc)) acc =
        some res ∧ res.1 < v := by
  intro ms
  induction ms with
  | nil =>
    intro acc h hacc
    exact ⟨acc, rfl, hacc⟩
  | cons a rest ih =>
    intro acc h hacc
    obtain ⟨v2, hv2, hlt⟩ := h a (List.mem_cons_self a rest)
    rw [List.foldlM_cons, hv2]
    simp only [Option.map_some', Option.bind_eq_bind, Option.some_bind]
    apply ih
    · exact fun m hm => h m (List.mem_cons_of_mem a hm)
    · by_cases hb : acc.1 < v2
      · rw [if_pos hb]
        exact hlt
      · rw [if_neg hb]
        exact hacc

/-- The valuation of the single roll-1 opening move for an arbitrary
LUT: the successor is Dark-to-move, so the inverted state's key
2080374792 is looked up and the value inverted. -/
theorem finkel_roll1_value (lut : Nat → Option Nat) :
    lut_value_of_move lut finkelConfig Board.empty ⟨.light, 7, 0⟩ ⟨.dark, 7, 0⟩
      .light 1 intro_move_a4 =
      (lut 2080374792).map (fun value => 65535 - value) := by
  have happly : apply_move finkelConfig Board.empty ⟨.light, 7, 0⟩ ⟨.dark, 7, 0⟩
      .light 1 intro_move_a4 =
      [.moved Board.empty ⟨.light, 7, 0⟩ ⟨.dark, 7, 0⟩ .light 1 intro_move_a4,
       .waitingForRoll board_a4 ⟨.light, 6, 0⟩ ⟨.dark, 7, 0⟩ .dark] := rfl
  have hmid : encode_middle_lane (Board.inverted board_a4) = .ok 0 :=
    encode_middle_lane_of_raw_zero _ rfl
  have hcore := encode_game_state_core_eval (Board.inverted board_a4)
    ⟨.light, 7, 0⟩ ⟨.dark, 6, 0⟩ 0 hmid
  have hkey : encode_game_state
      (copy_inverted (.waitingForRoll board_a4 ⟨.light, 6, 0⟩ ⟨.dark, 7, 0⟩ .dark)) =
      .ok 2080374792 := by
    have h1 : encode_game_state
        (copy_inverted (.waitingForRoll board_a4 ⟨.light, 6, 0⟩ ⟨.dark, 7, 0⟩ .dark)) =
        encode_game_state_core (Board.inverted board_a4)
          ⟨.light, 7, 0⟩ ⟨.dark, 6, 0⟩ .light := rfl
    rw [h1, hcore]
    rfl
  unfold lut_value_of_move
  rw [happly]
  have hturn : (GameState.waitingForRoll board_a4 ⟨.light, 6, 0⟩ ⟨.dark, 7, 0⟩
      .dark).turn = some .dark := rfl
  simp only [hturn]
  rw [if_pos (by simp)]
  rw [hkey]

/-- C7 (amended): what `LutAgent.play` does with the available moves.  A
returned move is one of the available moves; a failed lookup or encoding
on any branch aborts the whole call (the exception propagates — no
fallback to the first legal move); when every branch values to 0 the
agent returns no move at all (`highest_value` starts at 0 and only a
strictly greater value installs a move); and when some move values to a
positive `v` that strictly exceeds every earlier value and is not
exceeded by any later value, the agent returns that move — the highest
value wins and ties go to the first move seen. -/
theorem claim_C7 (lut : Nat → Option Nat) (cfg : RuleConfig) (board : Board)
    (l d : PlayerState) (turn : PlayerType) (roll : Nat) (moves : List Move) :
    (∀ mv, lut_agent_play lut cfg board l d turn roll moves = some (some mv) →
      mv ∈ moves) ∧
    ((∃ m ∈ moves, lut_value_of_move lut cfg board l d turn roll m = none) →
      lut_agent_play lut cfg board l d turn roll moves = none) ∧
    ((∀ m ∈ moves, lut_value_of_move lut cfg board l d turn roll m = some 0) →
      lut_agent_play lut cfg board l d turn roll moves = some none) ∧
    (∀ ms1 m ms2 v, moves = ms1 ++ m :: ms2 →
      lut_value_of_move lut cfg board l d turn roll m = some v → 0 < v →
      (∀ m2 ∈ ms1, ∃ v2,
        lut_value_of_move lut cfg board l d turn roll m2 = some v2 ∧ v2 < v) →
      (∀ m2 ∈ ms2, ∃ v2,
        lut_value_of_move lut cfg board l d turn roll m2 = some v2 ∧ v2 ≤ v) →
      lut_agent_play lut cfg board l d turn roll moves = some (some m)) := by
  refine ⟨?_, ?_, ?_, ?_⟩
  · intro mv hmv
    unfold lut_agent_play at hmv
    rcases hres : moves.foldlM (fun (acc : Nat × Option Move) m =>
        (lut_value_of_move lut cfg board l d turn roll m).map
          (fun value => if acc.1 < value then (value, some m) else acc))
        ((0 : Nat), (none : Option Move)) with _ | res
    · rw [hres] at hmv
      simp at hmv
    · rw [hres] at hmv
      simp only [Option.map_some', Option.some.injEq] at hmv
      rcases lut_fold_mem (lut_value_of_move lut cfg board l d turn roll)
          moves _ res hres mv hmv with habs | hmem
      · simp at habs
      · exact hmem
  · rintro ⟨m, hm, hnone⟩
    unfold lut_agent_play
    rw [lut_fold_none (lut_value_of_move lut cfg board l d turn roll)
      moves _ m hm hnone]
    rfl
  · intro hzero
    unfold lut_agent_play
    rw [lut_fold_le (lut_value_of_move lut cfg board l d turn roll) moves
      ((0 : Nat), (none : Option Move))
      (fun m hm => ⟨0, hzero m hm, Nat.le_refl 0⟩)]
    rfl
  · intro ms1 m ms2 v heq hfm hpos hbefore hafter
    subst heq
    unfold lut_agent_play
    obtain ⟨acc1, hfold1, hacc1⟩ := lut_fold_lt
      (lut_value_of_move lut cfg board l d turn roll) v ms1
      ((0 : Nat), (none : Option Move)) hbefore hpos
    rw [List.foldlM_append, hfold1]
    simp only [Option.bind_eq_bind, Option.some_bind]
    rw [List.foldlM_cons, hfm]
    simp only [Option.map_some', Option.bind_eq_bind, Option.some_bind]
    rw [if_pos hacc1]
    rw [lut_fold_le (lut_value_of_move lut cfg board l d turn roll) ms2
      ((v, some m) : Nat × Option Move) (fun m2 hm2 => hafter m2 hm2)]
    rfl

/-- C7 (counterexample): with a LUT answering every key (value 65535,
the maximum), the single available opening move for a roll of 1 values to
`65535 - 65535 = 0`; no value strictly exceeds the initial
`highest_value = 0`, so `LutAgent.play` returns no move at all even
though the available-move list is non-empty and every lookup succeeded —
refuting "always returns one of the available moves". -/
theorem claim_C7_counterexample :
    find_available_moves finkelConfig Board.empty ⟨.light, 7, 0⟩ 1 =
      [intro_move_a4] ∧
    lut_const 65535 2080374792 = some 65535 ∧
    lut_value_of_move (lut_const 65535) finkelConfig Board.empty ⟨.light, 7, 0⟩
      ⟨.dark, 7, 0⟩ .light 1 intro_move_a4 = some 0 ∧
    lut_agent_play (lut_const 65535) finkelConfig Board.empty ⟨.light, 7, 0⟩
      ⟨.dark, 7, 0⟩ .light 1 [intro_move_a4] = some none ∧
    [intro_move_a4] ≠ ([] : List Move) := by
  have hv : lut_value_of_move (lut_const 65535) finkelConfig Board.empty
      ⟨.light, 7, 0⟩ ⟨.dark, 7, 0⟩ .light 1 intro_move_a4 = some 0 := by
    rw [finkel_roll1_value]
    rfl
  refine ⟨finkel_moves_roll1, rfl, hv, ?_, by simp⟩
  unfold lut_agent_play
  simp only [List.foldlM_cons, List.foldlM_nil]
  rw [hv]
  simp only [Option.map_some', Option.bind_eq_bind, Option.some_bind]
  rw [if_neg (by decide)]
  rfl

theorem claim_C7_witness :
    lut_value_of_move (lut_const 40000) finkelConfig Board.empty ⟨.light, 7, 0⟩
      ⟨.dark, 7, 0⟩ .light 1 intro_move_a4 = some 25535 ∧
    (0 : Nat) < 25535 ∧
    lut_agent_play (lut_const 40000) finkelConfig Board.empty ⟨.light, 7, 0⟩
      ⟨.dark, 7, 0⟩ .light 1 [intro_move_a4] = some (some intro_move_a4) := by
  have hval : lut_value_of_move (lut_const 40000) finkelConfig Board.empty
      ⟨.light, 7, 0⟩ ⟨.dark, 7, 0⟩ .light 1 intro_move_a4 = some 25535 := by
    rw [finkel_roll1_value]
    rfl
  refine ⟨hval, by decide, ?_⟩
  exact (claim_C7 (lut_const 40000) finkelConfig Board.empty ⟨.light, 7, 0⟩
      ⟨.dark, 7, 0⟩ .light 1 [intro_move_a4]).2.2.2 [] intro_move_a4 [] 25535
    rfl hval (by decide) (fun m2 hm2 => absurd hm2 (List.not_mem_nil m2))
    (fun m2 hm2 => absurd hm2 (List.not_mem_nil m2))

end RoyalUr
